import Mathlib

/-!
Verification of the conversation-catalog and rule-store core of `cc-switch`
(`src-tauri/src/conversation.rs` and `src-tauri/src/global_rules.rs`).

The Rust code is shallowly embedded: filesystem reads are modelled by data
already carrying each fallible step's outcome (`Except String _` for a
`read_dir` listing or a directory entry, a `read_ok` flag for a file read),
and `serde_json` / `toml` documents are modelled as inductive value trees.
Every definition below mirrors one Rust item of the same name.
-/

/-- First-match lookup in an association list.  Models both
`serde_json::Value::get` on objects and `toml::Table::get` (the Rust tables
are maps, so the first match is the only match there). -/
def alookup {α : Type} : List (String × α) → String → Option α
  | [], _ => none
  | (k, v) :: rest, key => if k = key then some v else alookup rest key

/-- Does `needle` occur at the head of `hay`?  Helper for `listHasSub`. -/
def listStarts : List Char → List Char → Bool
  | _, [] => true
  | [], _ :: _ => false
  | h :: hs, n :: ns => h == n && listStarts hs ns

/-- Contiguous-sublist test on character lists. -/
def listHasSub : List Char → List Char → Bool
  | [], needle => needle.isEmpty
  | h :: hs, needle => listStarts (h :: hs) needle || listHasSub hs needle

/-- Model of Rust `str::contains` (substring containment). -/
def strContains (hay needle : String) : Bool :=
  listHasSub hay.data needle.data

/-- Split a character list at a separator; always returns at least one
(possibly empty) segment, like Rust/Lean `split`. -/
def splitOnChar (sep : Char) : List Char → List (List Char)
  | [] => [[]]
  | c :: rest =>
      match splitOnChar sep rest with
      | [] => [[]]
      | h :: t => if c == sep then [] :: h :: t else (c :: h) :: t

/-- Model of Rust `str::to_lowercase`: per-character lowering (the special
multi-character Unicode lowerings are out of scope of the records this
program handles). -/
def strToLower (s : String) : String :=
  String.mk (s.data.map Char.toLower)

/-- Model of Rust `str::starts_with('.')`. -/
def startsWithDot (s : String) : Bool :=
  s.data.head? == some '.'

/-- Model of Rust `Path::file_name().and_then(|s| s.to_str())` for the
slash-separated path strings used by the rule store: the last slash-
separated component, unless it is empty or a dot component. -/
def fileNameOf (p : String) : Option String :=
  match (splitOnChar '/' p.data).getLast? with
  | some cs =>
      let s := String.mk cs
      if s = "" ∨ s = ".." ∨ s = "." then none else some s
  | none => none

/-- Model of Rust `Path::extension().and_then(|s| s.to_str())` on a file
name: the part after the last dot, where a single leading dot belongs to the
stem. -/
def extOf (name : String) : Option String :=
  let core := if name.data.head? == some '.' then name.data.tail else name.data
  match splitOnChar '.' core with
  | [] => none
  | [_] => none
  | parts => parts.getLast?.map String.mk

/-- A JSON value, as produced by `serde_json` from one line of a record
file. -/
inductive JsonValue where
  | null
  | bool (b : Bool)
  | num (n : Int)
  | str (s : String)
  | arr (elems : List JsonValue)
  | obj (fields : List (String × JsonValue))

/-- Model of `serde_json::Value::get` (object field lookup). -/
def JsonValue.get (j : JsonValue) (k : String) : Option JsonValue :=
  match j with
  | .obj fields => alookup fields k
  | _ => none

/-- Model of `serde_json::Value::as_str`. -/
def JsonValue.asStr : JsonValue → Option String
  | .str s => some s
  | _ => none

/-- One line of a record file as seen by `serde_json::from_str`: either it
parses as the JSON value `j`, or it is not valid JSON. -/
inductive RecLine where
  | json (j : JsonValue)
  | invalid

/-- `ClaudeMessage` from `conversation.rs`: the Claude first-line envelope. -/
structure ClaudeMessage where
  uuid : String
  parent_uuid : Option String
  session_id : String
  msg_type : String
  timestamp : String
  message : JsonValue

/-- serde deserialization of `ClaudeMessage` from a JSON value: `uuid`,
`sessionId`, `type`, `timestamp` are required strings, `message` is a
required value of any shape, and `parentUuid` is an `Option<String>`
(missing or `null` become `None`). -/
def claudeMessageOfJson (j : JsonValue) : Option ClaudeMessage :=
  match j with
  | .obj fields => do
      let uuid ← (alookup fields "uuid").bind JsonValue.asStr
      let parent_uuid ←
        match alookup fields "parentUuid" with
        | none => some none
        | some .null => some none
        | some (.str s) => some (some s)
        | some _ => none
      let session_id ← (alookup fields "sessionId").bind JsonValue.asStr
      let msg_type ← (alookup fields "type").bind JsonValue.asStr
      let timestamp ← (alookup fields "timestamp").bind JsonValue.asStr
      let message ← alookup fields "message"
      some { uuid, parent_uuid, session_id, msg_type, timestamp, message }
  | _ => none

/-- `CodexMessage` from `conversation.rs`: the Codex first-line envelope. -/
structure CodexMessage where
  timestamp : String
  msg_type : String
  payload : JsonValue

/-- serde deserialization of `CodexMessage`: `timestamp` and `type` are
required strings, `payload` a required value. -/
def codexMessageOfJson (j : JsonValue) : Option CodexMessage :=
  match j with
  | .obj fields => do
      let timestamp ← (alookup fields "timestamp").bind JsonValue.asStr
      let msg_type ← (alookup fields "type").bind JsonValue.asStr
      let payload ← alookup fields "payload"
      some { timestamp, msg_type, payload }
  | _ => none

/-- The session-id extraction of `get_claude_conversation_meta`
(lines 130-134): parse the first line as a `ClaudeMessage` and take its
`session_id`; any failure yields `none`. -/
def claudeSessionIdOfContent (content : List RecLine) : Option String :=
  (content.head?.bind fun l =>
    match l with
    | .json j => claudeMessageOfJson j
    | .invalid => none).map (fun msg => msg.session_id)

/-- The session-id extraction of `get_codex_conversation_meta`
(lines 242-255): parse the first line as a `CodexMessage`; if its type is
`"session_meta"`, take `payload.id` as a string; otherwise `none`. -/
def codexSessionIdOfContent (content : List RecLine) : Option String :=
  (content.head?.bind fun l =>
    match l with
    | .json j => codexMessageOfJson j
    | .invalid => none).bind fun msg =>
      if msg.msg_type = "session_meta" then
        (msg.payload.get "id").bind JsonValue.asStr
      else none

/-- `ConversationMeta` from `conversation.rs`. -/
structure ConversationMeta where
  id : String
  app_type : String
  file_path : String
  file_size : Nat
  created_at : Option Int
  modified_at : Int
  message_count : Nat
  project_name : Option String
  session_id : Option String
deriving DecidableEq

/-- A record file as the scanner sees it: its stem and extension (from the
path), whether `fs::metadata` and `fs::read_to_string` succeed, the
filesystem metadata, and the file's lines.  A directory accidentally listed
at file level is a `RecFile` whose reads fail. -/
structure RecFile where
  stem : String
  ext : Option String
  meta_ok : Bool
  read_ok : Bool
  path_str : String
  size : Nat
  mtime : Option Int
  ctime : Option Int
  content : List RecLine

/-- `get_claude_conversation_meta`: fails if metadata or content cannot be
read; otherwise counts lines, best-effort-extracts the session id, and
defaults a missing modification time to 0. -/
def getClaudeConversationMeta (f : RecFile) (project_name : String) :
    Except String ConversationMeta :=
  if !f.meta_ok then .error "获取文件元数据失败"
  else if !f.read_ok then .error "读取文件失败"
  else .ok
    { id := f.stem
      app_type := "claude"
      file_path := f.path_str
      file_size := f.size
      created_at := f.ctime
      modified_at := f.mtime.getD 0
      message_count := f.content.length
      project_name := some project_name
      session_id := claudeSessionIdOfContent f.content }

/-- `get_codex_conversation_meta`: as for Claude but with no project name
and the Codex session-id rule. -/
def getCodexConversationMeta (f : RecFile) : Except String ConversationMeta :=
  if !f.meta_ok then .error "获取文件元数据失败"
  else if !f.read_ok then .error "读取文件失败"
  else .ok
    { id := f.stem
      app_type := "codex"
      file_path := f.path_str
      file_size := f.size
      created_at := f.ctime
      modified_at := f.mtime.getD 0
      message_count := f.content.length
      project_name := none
      session_id := codexSessionIdOfContent f.content }

/-- The final sort of both listings: Rust
`sort_by(|a, b| b.modified_at.cmp(&a.modified_at))`, a stable sort into
non-increasing `modified_at` order.  A stable sort's output is determined by
the comparator and the input order, so Lean's (stable) insertion sort models
Rust's (stable) `sort_by` exactly. -/
def sortByModifiedDesc (l : List ConversationMeta) : List ConversationMeta :=
  l.insertionSort (fun a b => b.modified_at ≤ a.modified_at)

/-- A directory listing as `fs::read_dir` presents it: the listing itself
may fail, and each entry may fail to be read. -/
abbrev Listing (α : Type) := Except String (List (Except String α))

/-- A top-level entry of the Claude `projects` directory: a subdirectory
(with its own listing of record files) or a non-directory entry, which the
scanner skips. -/
inductive ClaudeEntry where
  | subdir (name : String) (files : Listing RecFile)
  | nondir

/-- The Claude `projects` tree: `none` when the root does not exist. -/
abbrev ClaudeTree := Option (Listing ClaudeEntry)

/-- Inner loop of `list_claude_conversations` (lines 89-100): walk one
project directory's entries; a failed entry aborts, a `.jsonl` file whose
metadata extraction fails is skipped. -/
def scanClaudeFiles (project : String) :
    List (Except String RecFile) → Except String (List ConversationMeta)
  | [] => .ok []
  | .error e :: _ => .error ("读取文件项失败: " ++ e)
  | .ok f :: rest =>
      if f.ext = some "jsonl" then
        match getClaudeConversationMeta f project with
        | .ok m => (scanClaudeFiles project rest).map (fun ms => m :: ms)
        | .error _ => scanClaudeFiles project rest
      else scanClaudeFiles project rest

/-- Outer loop of `list_claude_conversations` (lines 75-102): walk the root
entries; hidden directories are skipped, non-directories are skipped, a
failed entry or failed subdirectory listing aborts. -/
def scanClaudeEntries :
    List (Except String ClaudeEntry) → Except String (List ConversationMeta)
  | [] => .ok []
  | .error e :: _ => .error ("读取目录项失败: " ++ e)
  | .ok .nondir :: rest => scanClaudeEntries rest
  | .ok (.subdir name files) :: rest =>
      if startsWithDot name then scanClaudeEntries rest
      else
        match files with
        | .error e => .error ("读取项目目录失败: " ++ e)
        | .ok fl => do
            let ms ← scanClaudeFiles name fl
            let tail ← scanClaudeEntries rest
            .ok (ms ++ tail)

/-- `list_claude_conversations`: empty when the root is absent, an error
when the root cannot be read, otherwise the scan sorted by modification
time descending. -/
def listClaudeConversations (t : ClaudeTree) :
    Except String (List ConversationMeta) :=
  match t with
  | none => .ok []
  | some (.error e) => .error ("读取 Claude 项目目录失败: " ++ e)
  | some (.ok entries) => (scanClaudeEntries entries).map sortByModifiedDesc

/-- A directory entry at one of the Codex nesting levels: a directory with
its own listing, or a non-directory entry, which the scanner skips. -/
inductive DNode (α : Type) where
  | notdir
  | dir (children : Listing α)

/-- The Codex `sessions` tree: year entries contain month entries contain
day entries contain record files; `none` when the root does not exist. -/
abbrev CodexTree := Option (Listing (DNode (DNode (DNode RecFile))))

/-- Innermost loop of `list_codex_conversations` (lines 203-214): the files
of one day directory. -/
def scanCodexFiles :
    List (Except String RecFile) → Except String (List ConversationMeta)
  | [] => .ok []
  | .error e :: _ => .error ("读取文件项失败: " ++ e)
  | .ok f :: rest =>
      if f.ext = some "jsonl" then
        match getCodexConversationMeta f with
        | .ok m => (scanCodexFiles rest).map (fun ms => m :: ms)
        | .error _ => scanCodexFiles rest
      else scanCodexFiles rest

/-- Day level of `list_codex_conversations` (lines 192-215). -/
def scanCodexDays :
    List (Except String (DNode RecFile)) → Except String (List ConversationMeta)
  | [] => .ok []
  | .error e :: _ => .error ("读取日期目录失败: " ++ e)
  | .ok .notdir :: rest => scanCodexDays rest
  | .ok (.dir files) :: rest =>
      match files with
      | .error e => .error ("读取会话文件失败: " ++ e)
      | .ok fl => do
          let ms ← scanCodexFiles fl
          let tail ← scanCodexDays rest
          .ok (ms ++ tail)

/-- Month level of `list_codex_conversations` (lines 182-216). -/
def scanCodexMonths :
    List (Except String (DNode (DNode RecFile))) →
      Except String (List ConversationMeta)
  | [] => .ok []
  | .error e :: _ => .error ("读取月份目录失败: " ++ e)
  | .ok .notdir :: rest => scanCodexMonths rest
  | .ok (.dir days) :: rest =>
      match days with
      | .error e => .error ("读取日期目录失败: " ++ e)
      | .ok dl => do
          let ms ← scanCodexDays dl
          let tail ← scanCodexMonths rest
          .ok (ms ++ tail)

/-- Year level of `list_codex_conversations` (lines 172-217). -/
def scanCodexYears :
    List (Except String (DNode (DNode (DNode RecFile)))) →
      Except String (List ConversationMeta)
  | [] => .ok []
  | .error e :: _ => .error ("读取年份目录失败: " ++ e)
  | .ok .notdir :: rest => scanCodexYears rest
  | .ok (.dir months) :: rest =>
      match months with
      | .error e => .error ("读取月份目录失败: " ++ e)
      | .ok ml => do
          let ms ← scanCodexMonths ml
          let tail ← scanCodexYears rest
          .ok (ms ++ tail)

/-- `list_codex_conversations`. -/
def listCodexConversations (t : CodexTree) :
    Except String (List ConversationMeta) :=
  match t with
  | none => .ok []
  | some (.error e) => .error ("读取 Codex 会话目录失败: " ++ e)
  | some (.ok years) => (scanCodexYears years).map sortByModifiedDesc

/-- `search_conversations` (lines 327-373).  The override-directory state is
abstracted into the two trees the listings walk.  Rust's `match` on
`app_type.as_deref()` with literal arms is the equivalent conditional
chain. -/
def searchConversations (ct : ClaudeTree) (xt : CodexTree)
    (app_type : Option String) (keyword : String) :
    Except String (List ConversationMeta) :=
  match (if app_type = some "claude" then listClaudeConversations ct
         else if app_type = some "codex" then listCodexConversations xt
         else do
           let a ← listClaudeConversations ct
           let b ← listCodexConversations xt
           pure (a ++ b)) with
  | .error e => .error e
  | .ok all =>
      if keyword = "" then .ok all
      else
        let kw := strToLower keyword
        .ok (all.filter (fun conv =>
          strContains (strToLower conv.id) kw
          || (conv.project_name.map (fun p => strContains (strToLower p) kw)).getD false
          || (conv.session_id.map (fun s => strContains (strToLower s) kw)).getD false))

/-- The outcome of a Rust function returning `PathBuf` whose body may
`expect`-panic: either the path, or an aborted process with the panic
message.  A panic is not a returned error value. -/
inductive ResolvedPath where
  | ok (p : String)
  | panicked (msg : String)
deriving DecidableEq

/-- `get_claude_conversations_dir` (lines 44-52): override joined with
`projects`, else `~/.claude/projects`, with `expect` (panic) when the home
directory is unavailable.  The settings resolver is abstracted into the
`override_dir` argument. -/
def getClaudeConversationsDir (override_dir home : Option String) : ResolvedPath :=
  match override_dir with
  | some c => .ok (c ++ "/projects")
  | none =>
      match home with
      | some h => .ok (h ++ "/.claude/projects")
      | none => .panicked "无法获取用户主目录"

/-- `get_codex_conversations_dir` (lines 54-63). -/
def getCodexConversationsDir (override_dir home : Option String) : ResolvedPath :=
  match override_dir with
  | some c => .ok (c ++ "/sessions")
  | none =>
      match home with
      | some h => .ok (h ++ "/.codex/sessions")
      | none => .panicked "无法获取用户主目录"

/-- `get_claude_rules_path` (`global_rules.rs` lines 6-15): returns an error
(not a panic) when the home directory is unavailable and no override is
supplied. -/
def getClaudeRulesPath (override_dir home : Option String) : Except String String :=
  match override_dir with
  | some c => .ok (c ++ "/CLAUDE.md")
  | none =>
      match home with
      | some h => .ok (h ++ "/.claude/CLAUDE.md")
      | none => .error "无法获取用户主目录"

/-- Modelled from the spec: `codex_config::get_codex_config_dir` is not part
of the provided sources; per the spec's path-resolver contract (section 4.1)
it resolves the override base, else the home-relative `.codex` directory,
and fails with an environment error when the home directory cannot be
determined and no override is supplied. -/
def getCodexConfigDir (override_dir home : Option String) : Except String String :=
  match override_dir with
  | some c => .ok c
  | none =>
      match home with
      | some h => .ok (h ++ "/.codex")
      | none => .error "无法获取用户主目录"

/-- `get_codex_rules_dir` (`global_rules.rs` lines 18-21): the config
directory joined with `rules`. -/
def getCodexRulesDir (override_dir home : Option String) : Except String String :=
  (getCodexConfigDir override_dir home).map (fun d => d ++ "/rules")

/-- A filesystem path as a list of components from the tree root; `[]` is
the root (Rust's empty path, whose `file_name()` and `parent()` are
`None`). -/
abbrev FPath := List String

/-- The slice of filesystem state `delete_conversation` and
`cleanup_empty_directories` observe: which paths are files, which are
directories, which directories fail to be listed (`read_dir` error) and
which fail to be removed (`remove_dir` error). -/
structure DirFS where
  files : List FPath
  dirs : List FPath
  unreadable : List FPath
  sticky : List FPath
deriving DecidableEq

/-- The `entries.count()` of `cleanup_empty_directories`: how many entries a
`read_dir` of `d` yields. -/
def childCount (fs : DirFS) (d : FPath) : Nat :=
  (fs.files.filter (fun q => !q.isEmpty && (q.dropLast == d))).length
    + (fs.dirs.filter (fun q => !q.isEmpty && (q.dropLast == d))).length

/-- `cleanup_empty_directories` (lines 302-324): best-effort, never fails.
If the directory can be listed and is empty, try to remove it; on success,
recurse into the parent unless the parent ends with `sessions` or
`projects` or has no file name. -/
def cleanupEmptyDirectories (fs : DirFS) (d : FPath) : DirFS :=
  if d ∈ fs.dirs ∧ d ∉ fs.unreadable then
    if childCount fs d = 0 then
      if d ∈ fs.sticky then fs
      else
        let fs' : DirFS := { fs with dirs := fs.dirs.filter (fun q => q != d) }
        if hne : d = [] then fs'
        else
          if d.dropLast.getLast? = some "sessions"
              ∨ d.dropLast.getLast? = some "projects"
              ∨ d.dropLast = [] then fs'
          else cleanupEmptyDirectories fs' d.dropLast
    else fs
  else fs
termination_by d.length
decreasing_by
  simp only [List.length_dropLast]
  have hp : 0 < d.length := List.length_pos.mpr hne
  omega

/-- `delete_conversation` (lines 284-299): not-found error if the path does
not exist, an error leaving the tree untouched if `remove_file` fails (the
path is a directory), otherwise remove the file and best-effort-clean the
parent chain.  Returns the outcome together with the resulting tree. -/
def deleteConversation (file_path : FPath) (fs : DirFS) :
    Except String Unit × DirFS :=
  if file_path ∈ fs.files then
    let fs1 : DirFS := { fs with files := fs.files.filter (fun q => q != file_path) }
    let fs2 := if file_path = [] then fs1
      else cleanupEmptyDirectories fs1 file_path.dropLast
    (.ok (), fs2)
  else if file_path ∈ fs.dirs then
    (.error "删除文件失败: 目标是目录", fs)
  else
    (.error "文件不存在", fs)

/-- A TOML value, as the `toml` crate's `Value`. -/
inductive Toml where
  | str (s : String)
  | int (n : Int)
  | bool (b : Bool)
  | arr (xs : List Toml)
  | table (kvs : List (String × Toml))

/-- A TOML table: an association list of keys to values (the Rust table is
a map keyed by strings; parsed documents carry each key once). -/
abbrev TomlTable := List (String × Toml)

/-- `toml::Value::as_table`. -/
def Toml.asTable : Toml → Option TomlTable
  | .table t => some t
  | _ => none

/-- `toml::Value::as_array`. -/
def Toml.asArr : Toml → Option (List Toml)
  | .arr xs => some xs
  | _ => none

/-- `toml::Value::as_str`. -/
def Toml.asStr : Toml → Option String
  | .str s => some s
  | _ => none

/-- In-place update of the (present) key `key`, as a mutation through a
`&mut` reference obtained from the table. -/
def setKey : TomlTable → String → Toml → TomlTable
  | [], _, _ => []
  | (k1, v1) :: rest, key, v =>
      if k1 = key then (k1, v) :: setKey rest key v
      else (k1, v1) :: setKey rest key v

/-- `toml::map::Entry::or_insert`: return the existing value, or insert and
return the default. -/
def getOrInsert (t : TomlTable) (key : String) (d : Toml) : Toml × TomlTable :=
  match alookup t key with
  | some v => (v, t)
  | none => (d, t ++ [(key, d)])

/-- `Iterator::position`. -/
def listPosition {α : Type} (p : α → Bool) : List α → Option Nat
  | [] => none
  | a :: l => if p a then some 0 else (listPosition p l).map (fun i => i + 1)

/-- The text returned by `read_codex_config_text`, as the TOML parse sees
it: blank, a document parsing to a table, or unparsable.  (The `toml`
crate's serialize/parse round-trip is structure-preserving, so a written
table is modelled as `parsed` of that table.) -/
inductive ConfigText where
  | empty
  | parsed (root : TomlTable)
  | malformed

/-- `CodexRuleConfig` from `global_rules.rs`: one persisted `rules.global`
entry. -/
structure CodexRuleConfig where
  path : String
  tags : List String
deriving DecidableEq

/-- The per-item body of `read_codex_rules_config`'s loop (lines 182-204):
each item must be a table with a string `path`; `tags` defaults to the
empty list. -/
def parseRuleItems : List Toml → Except String (List CodexRuleConfig)
  | [] => .ok []
  | item :: rest =>
      match item.asTable with
      | none => .error "规则项必须是表"
      | some t =>
          match (alookup t "path").bind Toml.asStr with
          | none => .error "规则项缺少 path 字段"
          | some p =>
              let tags :=
                match (alookup t "tags").bind Toml.asArr with
                | some a => a.filterMap Toml.asStr
                | none => []
              (parseRuleItems rest).map (fun cs => ⟨p, tags⟩ :: cs)

/-- `read_codex_rules_config` (lines 162-207): blank text is an empty list,
a parse failure or missing `rules`/`global` structure is an error. -/
def readCodexRulesConfig (cfg : ConfigText) : Except String (List CodexRuleConfig) :=
  match cfg with
  | .empty => .ok []
  | .malformed => .error "解析 config.toml 失败"
  | .parsed root =>
      match (alookup root "rules").bind Toml.asTable with
      | none => .error "config.toml 中没有 [rules] 段"
      | some rt =>
          match (alookup rt "global").bind Toml.asArr with
          | none => .error "[rules] 段中没有 global 数组"
          | some ga => parseRuleItems ga

/-- The entry table `update_codex_rules_config` builds (lines 250-257): the
rule file's path, plus a `tags` array only when the tag list is
non-empty. -/
def ruleTableFor (path_str : String) (tags : List String) : TomlTable :=
  if tags.isEmpty then [("path", .str path_str)]
  else [("path", .str path_str), ("tags", .arr (tags.map .str))]

/-- The closure of `update_codex_rules_config`'s position search
(lines 241-247): does an existing `rules.global` item refer to the same
file name as the path being written? -/
def updatePosPred (path_str : String) (item : Toml) : Bool :=
  match item.asTable with
  | some t =>
      match (alookup t "path").bind Toml.asStr with
      | some p => fileNameOf p == fileNameOf path_str
      | none => false
  | none => false

/-- Body of `update_codex_rules_config` once the document is available as a
table (lines 222-272): get-or-create `rules.global`, find an existing entry
by file-name match, build the new entry (omitting `tags` when empty), and
replace in place or append. -/
def updateRulesRoot (rulesDir fn : String) (tags : List String)
    (root : TomlTable) : Except String TomlTable :=
  let rulesStep := getOrInsert root "rules" (.table [])
  match rulesStep.1.asTable with
  | none => .error "[rules] 必须是表"
  | some rt =>
      let globalStep := getOrInsert rt "global" (.arr [])
      match globalStep.1.asArr with
      | none => .error "global 必须是数组"
      | some ga =>
          let path_str := rulesDir ++ "/" ++ fn
          let existing_index := listPosition (updatePosPred path_str) ga
          let rule_table : TomlTable := ruleTableFor path_str tags
          let ga' :=
            match existing_index with
            | some i => ga.set i (.table rule_table)
            | none => ga ++ [.table rule_table]
          .ok (setKey rulesStep.2 "rules"
                (.table (setKey globalStep.2 "global" (.arr ga'))))

/-- `update_codex_rules_config` (lines 210-273): blank text starts from an
empty document, a parse failure is an error; the updated document is
written back. -/
def updateCodexRulesConfig (rulesDir fn : String) (tags : List String)
    (cfg : ConfigText) : Except String TomlTable :=
  match cfg with
  | .malformed => .error "解析 config.toml 失败"
  | .empty => updateRulesRoot rulesDir fn tags []
  | .parsed root => updateRulesRoot rulesDir fn tags root

/-- `remove_from_codex_rules_config` (lines 276-308): blank text is a
silent no-op, a parse failure is an error; otherwise drop the matching
entries of `rules.global` (if that structure exists) and write back. -/
def removeFromCodexRulesConfig (fn : String) (cfg : ConfigText) :
    Except String ConfigText :=
  match cfg with
  | .empty => .ok .empty
  | .malformed => .error "解析 config.toml 失败"
  | .parsed root =>
      let root' :=
        match alookup root "rules" with
        | some (.table rt) =>
            match alookup rt "global" with
            | some (.arr ga) =>
                setKey root "rules" (.table (setKey rt "global" (.arr
                  (ga.filter (fun item =>
                    match item.asTable with
                    | some t =>
                        match (alookup t "path").bind Toml.asStr with
                        | some p => !(fileNameOf p == some fn)
                        | none => true
                    | none => true)))))
            | _ => root
        | _ => root
      .ok (.parsed root')

/-- One entry of the rules directory as `read_dir` and the file reads see
it: its name, whether it is a regular file, whether reading it as text
succeeds, and its content. -/
structure RuleEntry where
  name : String
  is_file : Bool
  read_ok : Bool
  content : String
deriving DecidableEq

/-- The rule store's state: whether the rules directory exists, its
entries (each possibly failing), and the backing config document. -/
structure RulesState where
  dir_exists : Bool
  entries : List (Except String RuleEntry)
  cfg : ConfigText

/-- `CodexRuleFile` from `global_rules.rs`. -/
structure CodexRuleFile where
  name : String
  path : String
  tags : List String
  content : String
deriving DecidableEq

/-- First pass of `list_codex_rules` (lines 67-88): collect every `.md`
regular file, reading its content; a failed directory entry or a failed
content read aborts the listing. -/
def collectRuleFiles (rulesDir : String) :
    List (Except String RuleEntry) → Except String (List CodexRuleFile)
  | [] => .ok []
  | .error e :: _ => .error ("读取目录项失败: " ++ e)
  | .ok r :: rest =>
      if r.is_file && (extOf r.name == some "md") then
        if r.read_ok then
          (collectRuleFiles rulesDir rest).map
            (fun rs => ⟨r.name, rulesDir ++ "/" ++ r.name, [], r.content⟩ :: rs)
        else .error ("读取规则文件 " ++ r.name ++ " 失败")
      else collectRuleFiles rulesDir rest

/-- `list_codex_rules` (lines 56-105): absent directory yields `[]`; then
the collected files, with tags joined from the config by file-name match
when the config reads successfully, and left empty otherwise (graceful
degradation). -/
def listCodexRules (rulesDir : String) (st : RulesState) :
    Except String (List CodexRuleFile) :=
  if !st.dir_exists then .ok []
  else
    match collectRuleFiles rulesDir st.entries with
    | .error e => .error e
    | .ok rules =>
        match readCodexRulesConfig st.cfg with
        | .ok cfgRules => .ok (rules.map (fun r =>
            match cfgRules.find? (fun cr => fileNameOf cr.path == some r.name) with
            | some cr => { r with tags := cr.tags }
            | none => r))
        | .error _ => .ok rules

/-- The effect of `fs::write` on the rules directory listing: overwrite the
entry of that name, or create a fresh readable file. -/
def writeRuleFileEntries (entries : List (Except String RuleEntry))
    (fn content : String) : List (Except String RuleEntry) :=
  if entries.any (fun e =>
      match e with
      | .ok r => r.name == fn
      | .error _ => false) then
    entries.map (fun e =>
      match e with
      | .ok r => if r.name == fn then .ok ⟨fn, true, true, content⟩ else .ok r
      | .error msg => .error msg)
  else entries ++ [.ok ⟨fn, true, true, content⟩]

/-- `write_codex_rule` (lines 120-134): ensure the directory exists, write
the file, then upsert the config entry; a config failure surfaces as the
operation's error (with the file already written). -/
def writeCodexRule (rulesDir : String) (st : RulesState)
    (fn content : String) (tags : List String) :
    Except String Unit × RulesState :=
  let entries' := writeRuleFileEntries st.entries fn content
  match updateCodexRulesConfig rulesDir fn tags st.cfg with
  | .ok root' => (.ok (), ⟨true, entries', .parsed root'⟩)
  | .error e => (.error e, ⟨true, entries', st.cfg⟩)

/-- `delete_codex_rule` (lines 137-151): not-found error if the file is
absent; otherwise remove it and then remove its config entry. -/
def deleteCodexRule (st : RulesState) (fn : String) :
    Except String Unit × RulesState :=
  if st.entries.any (fun e =>
      match e with
      | .ok r => r.name == fn
      | .error _ => false) then
    let entries' := st.entries.filter (fun e =>
      match e with
      | .ok r => !(r.name == fn)
      | .error _ => true)
    match removeFromCodexRulesConfig fn st.cfg with
    | .ok cfg' => (.ok (), { st with entries := entries', cfg := cfg' })
    | .error e => (.error e, { st with entries := entries' })
  else (.error ("规则文件不存在: " ++ fn), st)

/-- Statement vocabulary: a directory-level file entry that is readable as
an entry but carries no record extension. -/
def recNoJsonl (x : Except String RecFile) : Prop :=
  ∃ f, x = Except.ok f ∧ f.ext ≠ some "jsonl"

/-- Statement vocabulary: a Claude root entry under which the scan can find
no record file, with every involved directory read succeeding. -/
def claudeEntryNoRecords (x : Except String ClaudeEntry) : Prop :=
  ∃ en, x = Except.ok en ∧
    (en = .nondir ∨ ∃ name files, en = .subdir name files ∧
      (startsWithDot name = true ∨ ∃ fl, files = .ok fl ∧ ∀ y ∈ fl, recNoJsonl y))

/-- Statement vocabulary: a readable Codex day entry with no record file. -/
def codexDayNoRecords (x : Except String (DNode RecFile)) : Prop :=
  ∃ nd, x = Except.ok nd ∧
    (nd = .notdir ∨ ∃ fl, nd = .dir (.ok fl) ∧ ∀ y ∈ fl, recNoJsonl y)

/-- Statement vocabulary: a readable Codex month entry with no record
file. -/
def codexMonthNoRecords (x : Except String (DNode (DNode RecFile))) : Prop :=
  ∃ nd, x = Except.ok nd ∧
    (nd = .notdir ∨ ∃ dl, nd = .dir (.ok dl) ∧ ∀ y ∈ dl, codexDayNoRecords y)

/-- Statement vocabulary: a readable Codex year entry with no record
file. -/
def codexYearNoRecords (x : Except String (DNode (DNode (DNode RecFile)))) : Prop :=
  ∃ nd, x = Except.ok nd ∧
    (nd = .notdir ∨ ∃ ml, nd = .dir (.ok ml) ∧ ∀ y ∈ ml, codexMonthNoRecords y)

/-- Statement vocabulary, following the search claim's wording: the
lowercased keyword occurs in the lowercased `id`, or in the lowercased
`containerName` when present, or in the lowercased `sessionId` when
present. -/
def specSearchMatches (kw : String) (m : ConversationMeta) : Prop :=
  strContains (strToLower m.id) (strToLower kw) = true
  ∨ (∃ p, m.project_name = some p ∧ strContains (strToLower p) (strToLower kw) = true)
  ∨ (∃ s, m.session_id = some s ∧ strContains (strToLower s) (strToLower kw) = true)

/-- Statement vocabulary: does a `rules.global` item refer to file `fn`
(by the file-name component of its `path`), as both the upsert's position
search and the listing's tag join test it. -/
def entryMatchesName (fn : String) (item : Toml) : Bool :=
  match item.asTable with
  | some t =>
      match (alookup t "path").bind Toml.asStr with
      | some p => fileNameOf p == some fn
      | none => false
  | none => false

/-- Statement vocabulary: a well-formed persisted rule entry (a table with
a string `path`), the shape `read_codex_rules_config` accepts. -/
def itemWF (item : Toml) : Prop :=
  ∃ t p, item = Toml.table t ∧ alookup t "path" = some (Toml.str p)

/-- Statement vocabulary: every persisted `rules.global` item (if that
structure is present) is well-formed. -/
def cfgGlobalWF : ConfigText → Prop
  | .parsed root =>
      ∀ rt, alookup root "rules" = some (.table rt) →
        ∀ ga, alookup rt "global" = some (.arr ga) →
          ∀ it ∈ ga, itemWF it
  | .empty => True
  | .malformed => True

/-- The tags `read_codex_rules_config` recovers from one entry table. -/
def tagsOfTable (t : TomlTable) : List String :=
  match (alookup t "tags").bind Toml.asArr with
  | some a => a.filterMap Toml.asStr
  | none => []

/-- A record file whose first line is the bare Codex `session_meta` shape
with no `timestamp` field. -/
def codexBareMetaFile : RecFile :=
  ⟨"r1", some "jsonl", true, true, "/home/u/.codex/sessions/2025/01/02/r1.jsonl",
   10, some 5, none,
   [RecLine.json (.obj [("type", .str "session_meta"),
                        ("payload", .obj [("id", .str "S2")])])]⟩

/-- A record file whose first line is a full Claude envelope. -/
def claudeEnvelopeFile : RecFile :=
  ⟨"c1", some "jsonl", true, true, "/p/c1.jsonl", 5, some 7, none,
   [RecLine.json (.obj [("uuid", .str "u1"), ("sessionId", .str "S1"),
     ("type", .str "user"), ("timestamp", .str "t0"), ("message", .null)])]⟩

/-- A record file whose first line is a full Codex envelope. -/
def codexEnvelopeFile : RecFile :=
  ⟨"c2", some "jsonl", true, true, "/s/c2.jsonl", 5, some 7, none,
   [RecLine.json (.obj [("timestamp", .str "t1"),
     ("type", .str "session_meta"), ("payload", .obj [("id", .str "S2")])])]⟩

/-- A record file whose first line is not valid JSON. -/
def invalidFirstLineFile : RecFile :=
  ⟨"c3", some "jsonl", true, true, "/p/c3.jsonl", 5, some 7, none,
   [RecLine.invalid]⟩

/-- A one-project Claude tree with a single readable record, for search
examples. -/
def claudeSearchTree : ClaudeTree :=
  some (.ok [.ok (.subdir "proj-x" (.ok [.ok
    ⟨"abc123", some "jsonl", true, true, "/p/abc123.jsonl", 3, some 10, none, []⟩]))])

theorem cleanup_files_eq (fs : DirFS) (d : FPath) :
    (cleanupEmptyDirectories fs d).files = fs.files := by
  induction fs, d using cleanupEmptyDirectories.induct with
  | _ =>
    rw [cleanupEmptyDirectories]
    repeat' split
    all_goals simp_all

theorem cleanup_dirs_subset (fs : DirFS) (d : FPath) (q : FPath)
    (hq : q ∈ (cleanupEmptyDirectories fs d).dirs) : q ∈ fs.dirs := by
  induction fs, d using cleanupEmptyDirectories.induct with
  | _ =>
    rw [cleanupEmptyDirectories] at hq
    repeat' split at hq
    all_goals simp_all [List.mem_filter]

theorem isPrefix_dropLast_of_proper {r d : FPath} (h : r <+: d) (hne : r ≠ d) :
    r <+: d.dropLast := by
  obtain ⟨t, rfl⟩ := h
  cases t with
  | nil => simp at hne
  | cons a l =>
    rw [List.dropLast_append_of_ne_nil r (by simp : (a :: l) ≠ [])]
    exact ⟨(a :: l).dropLast, rfl⟩

theorem cleanup_keeps_anchored (fs : DirFS) (d : FPath) (r : FPath)
    (hanchor : r.getLast? = some "projects" ∨ r.getLast? = some "sessions") :
    r ∈ fs.dirs → r <+: d → r ≠ d → r ∈ (cleanupEmptyDirectories fs d).dirs := by
  induction fs, d using cleanupEmptyDirectories.induct with
  | case1 fs d h1 h2 h3 =>
    intro hr _ _
    rw [cleanupEmptyDirectories]
    simp only [if_pos h1, if_pos h2, if_pos h3]
    exact hr
  | case2 fs h1 h2 h3 =>
    intro _ hpre hne
    exact absurd (List.prefix_nil.mp hpre) hne
  | case3 fs d h1 h2 h3 h4 h5 =>
    intro hr _ hne
    rw [cleanupEmptyDirectories]
    simp only [if_pos h1, if_pos h2, if_neg h3, dif_neg h4, if_pos h5]
    simp [List.mem_filter, hr, hne]
  | case4 fs d h1 h2 h3 fs' h4 h5 ih =>
    intro hr hpre hne
    rw [cleanupEmptyDirectories]
    simp only [if_pos h1, if_pos h2, if_neg h3, dif_neg h4, if_neg h5]
    have hr' : r ∈ fs'.dirs := by
      simp only [fs', List.mem_filter]
      simp [hr, hne]
    have hpre' : r <+: d.dropLast := isPrefix_dropLast_of_proper hpre hne
    have hne' : r ≠ d.dropLast := by
      intro heq
      apply h5
      rcases hanchor with ha | ha
      · exact Or.inr (Or.inl (heq ▸ ha))
      · exact Or.inl (heq ▸ ha)
    exact ih hr' hpre' hne'
  | case5 fs d h1 h2 =>
    intro hr _ _
    rw [cleanupEmptyDirectories]
    simp only [if_pos h1, if_neg h2]
    exact hr
  | case6 fs d h1 =>
    intro hr _ _
    rw [cleanupEmptyDirectories]
    simp only [if_neg h1]
    exact hr

theorem delete_ok_of_mem (fs : DirFS) (p : FPath) (hp : p ∈ fs.files) :
    (deleteConversation p fs).1 = .ok () := by
  simp [deleteConversation, hp]

/-- Claim C2 (confirmed): deleting a record file that sits at least two
levels below a backend root (a directory whose last component is
`projects` or `sessions`) never removes that root, even when everything
under it empties out; reclamation failures (unreadable or unremovable
directories are part of the state) never make the delete itself fail; and
empty intermediate containers — a project directory, or a whole
year/month/day chain — are fully collapsed. -/
theorem claim2_theorem :
    (∀ (fs : DirFS) (r rest : FPath),
        r.getLast? = some "projects" ∨ r.getLast? = some "sessions" →
        2 ≤ rest.length →
        r ∈ fs.dirs →
        r ++ rest ∈ fs.files →
        r ∈ (deleteConversation (r ++ rest) fs).2.dirs)
    ∧ (∀ (fs : DirFS) (p : FPath), p ∈ fs.files →
        (deleteConversation p fs).1 = .ok ())
    ∧ deleteConversation ["projects", "p1", "c.jsonl"]
        ⟨[["projects", "p1", "c.jsonl"]], [["projects"], ["projects", "p1"]], [], []⟩
        = (.ok (), ⟨[], [["projects"]], [], []⟩)
    ∧ deleteConversation ["sessions", "2025", "01", "02", "a.jsonl"]
        ⟨[["sessions", "2025", "01", "02", "a.jsonl"]],
         [["sessions"], ["sessions", "2025"], ["sessions", "2025", "01"],
          ["sessions", "2025", "01", "02"]], [], []⟩
        = (.ok (), ⟨[], [["sessions"]], [], []⟩) := by
  refine ⟨?_, fun fs p hp => delete_ok_of_mem fs p hp, ?_, ?_⟩
  · intro fs r rest hanchor hlen hr hfile
    have hrestne : rest ≠ [] := by
      intro h; subst h; simp at hlen
    have hne2 : r ++ rest ≠ [] := by
      simp [hrestne]
    simp only [deleteConversation, if_pos hfile, if_neg hne2]
    rw [List.dropLast_append_of_ne_nil r hrestne]
    apply cleanup_keeps_anchored _ _ _ hanchor
    · exact hr
    · exact ⟨rest.dropLast, rfl⟩
    · intro h
      have := congrArg List.length h
      simp [List.length_dropLast] at this
      omega
  · simp +decide [deleteConversation, cleanupEmptyDirectories, childCount]
  · simp +decide [deleteConversation, cleanupEmptyDirectories, childCount]

/-- Witness for C2: a concrete delete under a `projects` root keeps the
root, and a concrete delete keeps succeeding regardless of reclamation. -/
theorem claim2_witness :
    (["projects"] : FPath) ∈ (deleteConversation (["projects"] ++ ["px", "b.jsonl"])
      ⟨[["projects", "px", "b.jsonl"]], [["projects"], ["projects", "px"]], [], []⟩).2.dirs
    ∧ (deleteConversation [".claude", "f.jsonl"]
        ⟨[[".claude", "f.jsonl"]], [[".claude"]], [], []⟩).1 = .ok () := by
  constructor
  · exact claim2_theorem.1
      ⟨[["projects", "px", "b.jsonl"]], [["projects"], ["projects", "px"]], [], []⟩
      ["projects"] ["px", "b.jsonl"] (by decide) (by decide) (by decide) (by decide)
  · exact claim2_theorem.2.1
      ⟨[[".claude", "f.jsonl"]], [[".claude"]], [], []⟩ [".claude", "f.jsonl"] (by decide)

/-- Claim C8 (confirmed): deleting a non-existent path fails with the
not-found error and leaves the filesystem untouched; consequently a second
delete of the same path fails with the not-found error and changes
nothing. -/
theorem claim8_theorem :
    (∀ (fs : DirFS) (p : FPath), p ∉ fs.files → p ∉ fs.dirs →
        deleteConversation p fs = (.error "文件不存在", fs))
    ∧ (∀ (fs : DirFS) (p : FPath), p ∈ fs.files → p ∉ fs.dirs →
        (deleteConversation p fs).1 = .ok ()
        ∧ deleteConversation p (deleteConversation p fs).2
            = (.error "文件不存在", (deleteConversation p fs).2)) := by
  have hnot : ∀ (fs : DirFS) (p : FPath), p ∉ fs.files → p ∉ fs.dirs →
      deleteConversation p fs = (.error "文件不存在", fs) := by
    intro fs p h1 h2
    simp [deleteConversation, h1, h2]
  refine ⟨hnot, ?_⟩
  intro fs p hp hd
  refine ⟨delete_ok_of_mem fs p hp, ?_⟩
  set fs2 := (deleteConversation p fs).2 with hfs2
  have hfiles : p ∉ fs2.files := by
    have : fs2.files = (fs.files.filter (fun q => q != p)) := by
      simp only [hfs2, deleteConversation, if_pos hp]
      split
      · rfl
      · exact cleanup_files_eq _ _
    rw [this]
    simp [List.mem_filter]
  have hdirs : p ∉ fs2.dirs := by
    intro hmem
    apply hd
    have : fs2.dirs = (cleanupEmptyDirectories
        ({ fs with files := fs.files.filter (fun q => q != p) })
        p.dropLast).dirs ∨ fs2.dirs = fs.dirs := by
      simp only [hfs2, deleteConversation, if_pos hp]
      split
      · exact Or.inr rfl
      · exact Or.inl rfl
    rcases this with h | h
    · rw [h] at hmem
      have h2 := cleanup_dirs_subset _ _ _ hmem
      exact h2
    · rw [h] at hmem; exact hmem
  exact hnot fs2 p hfiles hdirs

/-- Witness for C8: a concrete missing path errors without change, and a
concrete double delete errors the second time without change. -/
theorem claim8_witness :
    deleteConversation ["projects", "q", "z.jsonl"] ⟨[], [["projects"]], [], []⟩
      = (.error "文件不存在", ⟨[], [["projects"]], [], []⟩)
    ∧ ((deleteConversation ["projects", "q", "z.jsonl"]
          ⟨[["projects", "q", "z.jsonl"]], [["projects"], ["projects", "q"]], [], []⟩).1 = .ok ()
      ∧ deleteConversation ["projects", "q", "z.jsonl"]
          (deleteConversation ["projects", "q", "z.jsonl"]
            ⟨[["projects", "q", "z.jsonl"]], [["projects"], ["projects", "q"]], [], []⟩).2
          = (.error "文件不存在",
             (deleteConversation ["projects", "q", "z.jsonl"]
               ⟨[["projects", "q", "z.jsonl"]], [["projects"], ["projects", "q"]], [], []⟩).2)) :=
  ⟨claim8_theorem.1 ⟨[], [["projects"]], [], []⟩ ["projects", "q", "z.jsonl"]
      (by decide) (by decide),
   claim8_theorem.2 ⟨[["projects", "q", "z.jsonl"]], [["projects"], ["projects", "q"]], [], []⟩
      ["projects", "q", "z.jsonl"] (by decide) (by decide)⟩

/-- Claim C7 counterexample: with no override and no determinable home
directory, the conversation-tree resolvers do not fail with an error value
at all — they panic (`expect`), aborting instead of returning an
`EnvironmentError`. -/
theorem claim7_counterexample :
    getClaudeConversationsDir none none = .panicked "无法获取用户主目录"
    ∧ (∀ p, getClaudeConversationsDir none none ≠ .ok p)
    ∧ getCodexConversationsDir none none = .panicked "无法获取用户主目录"
    ∧ (∀ p, getCodexConversationsDir none none ≠ .ok p) :=
  ⟨rfl, fun _ h => ResolvedPath.noConfusion h, rfl,
   fun _ h => ResolvedPath.noConfusion h⟩

/-- Claim C7 (corrected): when the home directory cannot be determined and
no override is supplied, the Claude rules path and the (spec-modelled)
Codex rules directory fail with the environment error, but the two
conversation-tree resolvers panic with that message instead of returning
an error; with an override they succeed. -/
theorem claim7_theorem :
    getClaudeRulesPath none none = .error "无法获取用户主目录"
    ∧ getCodexRulesDir none none = .error "无法获取用户主目录"
    ∧ getClaudeConversationsDir none none = .panicked "无法获取用户主目录"
    ∧ getCodexConversationsDir none none = .panicked "无法获取用户主目录"
    ∧ (∀ c, getClaudeConversationsDir (some c) none = .ok (c ++ "/projects"))
    ∧ (∀ c, getCodexConversationsDir (some c) none = .ok (c ++ "/sessions")) :=
  ⟨rfl, rfl, rfl, rfl, fun _ => rfl, fun _ => rfl⟩

/-- Claim C4 counterexample: a record whose first line is exactly
`⦃"type":"session_meta","payload":⦃"id":"S2"⦄⦄` does **not** yield session
id `S2` — the envelope's required `timestamp` field is missing, so the
parse fails and the extracted session id is absent. -/
theorem claim4_counterexample :
    (getCodexConversationMeta codexBareMetaFile).map (fun m => m.session_id) = .ok none
    ∧ (getCodexConversationMeta codexBareMetaFile).map (fun m => m.session_id)
        ≠ .ok (some "S2") := by
  have h1 : (getCodexConversationMeta codexBareMetaFile).map (fun m => m.session_id)
      = .ok none := rfl
  exact ⟨h1, by rw [h1]; simp⟩

/-- Claim C4 (corrected): a first line that is the full Claude envelope
containing `sessionId: S1` yields session id `S1`; the Codex shape yields
`S2` only when the required `timestamp` field is also present (the bare
shape of the claim yields an absent id, see the counterexample); a missing
or invalid first line yields an absent session id while metadata
extraction still succeeds. -/
theorem claim4_theorem :
    (∀ (f : RecFile) (pn u S1 ty ts : String) (msgJ : JsonValue),
        f.meta_ok = true → f.read_ok = true →
        f.content = [RecLine.json (.obj [("uuid", .str u), ("sessionId", .str S1),
          ("type", .str ty), ("timestamp", .str ts), ("message", msgJ)])] →
        ∃ m, getClaudeConversationMeta f pn = .ok m ∧ m.session_id = some S1)
    ∧ (∀ (f : RecFile) (ts S2 : String),
        f.meta_ok = true → f.read_ok = true →
        f.content = [RecLine.json (.obj [("timestamp", .str ts),
          ("type", .str "session_meta"), ("payload", .obj [("id", .str S2)])])] →
        ∃ m, getCodexConversationMeta f = .ok m ∧ m.session_id = some S2)
    ∧ (∀ (f : RecFile) (pn : String),
        f.meta_ok = true → f.read_ok = true →
        (f.content = [] ∨ f.content.head? = some RecLine.invalid) →
        (∃ m, getClaudeConversationMeta f pn = .ok m ∧ m.session_id = none)
        ∧ (∃ m, getCodexConversationMeta f = .ok m ∧ m.session_id = none)) := by
  refine ⟨?_, ?_, ?_⟩
  · intro f pn u S1 ty ts msgJ h1 h2 hc
    refine ⟨⟨f.stem, "claude", f.path_str, f.size, f.ctime, f.mtime.getD 0,
      f.content.length, some pn, claudeSessionIdOfContent f.content⟩, ?_, ?_⟩
    · simp [getClaudeConversationMeta, h1, h2]
    · rw [hc]
      simp [claudeSessionIdOfContent, claudeMessageOfJson, alookup, JsonValue.asStr]
  · intro f ts S2 h1 h2 hc
    refine ⟨⟨f.stem, "codex", f.path_str, f.size, f.ctime, f.mtime.getD 0,
      f.content.length, none, codexSessionIdOfContent f.content⟩, ?_, ?_⟩
    · simp [getCodexConversationMeta, h1, h2]
    · rw [hc]
      simp [codexSessionIdOfContent, codexMessageOfJson, alookup, JsonValue.asStr,
        JsonValue.get]
  · intro f pn h1 h2 hc
    have hcl : claudeSessionIdOfContent f.content = none := by
      rcases hc with hc | hc
      · simp [claudeSessionIdOfContent, hc]
      · simp [claudeSessionIdOfContent, hc]
    have hcx : codexSessionIdOfContent f.content = none := by
      rcases hc with hc | hc
      · simp [codexSessionIdOfContent, hc]
      · simp [codexSessionIdOfContent, hc]
    constructor
    · refine ⟨⟨f.stem, "claude", f.path_str, f.size, f.ctime, f.mtime.getD 0,
        f.content.length, some pn, claudeSessionIdOfContent f.content⟩, ?_, hcl⟩
      simp [getClaudeConversationMeta, h1, h2]
    · refine ⟨⟨f.stem, "codex", f.path_str, f.size, f.ctime, f.mtime.getD 0,
        f.content.length, none, codexSessionIdOfContent f.content⟩, ?_, hcx⟩
      simp [getCodexConversationMeta, h1, h2]

/-- Witness for C4: the three amended extraction outcomes at concrete
record files. -/
theorem claim4_witness :
    ((∃ m, getClaudeConversationMeta claudeEnvelopeFile "proj" = .ok m
        ∧ m.session_id = some "S1")
    ∧ (∃ m, getCodexConversationMeta codexEnvelopeFile = .ok m
        ∧ m.session_id = some "S2")
    ∧ (∃ m, getClaudeConversationMeta invalidFirstLineFile "proj" = .ok m
        ∧ m.session_id = none)) :=
  ⟨claim4_theorem.1 claudeEnvelopeFile "proj" "u1" "S1" "user" "t0" .null rfl rfl rfl,
   claim4_theorem.2.1 codexEnvelopeFile "t1" "S2" rfl rfl rfl,
   (claim4_theorem.2.2 invalidFirstLineFile "proj" rfl rfl (Or.inr rfl)).1⟩

theorem alookup_setKey_ne {t : TomlTable} {key k : String} {v : Toml}
    (h : k ≠ key) : alookup (setKey t key v) k = alookup t k := by
  induction t with
  | nil => rfl
  | cons kv rest ih =>
    obtain ⟨k1, v1⟩ := kv
    by_cases hk : k1 = key
    · subst hk
      simp [setKey, alookup, Ne.symm h, ih]
    · by_cases hk2 : k1 = k
      · simp [setKey, alookup, hk, hk2, h]
      · simp [setKey, alookup, hk, hk2, ih]

theorem alookup_append_single_ne {t : TomlTable} {key k : String} {v : Toml}
    (h : k ≠ key) : alookup (t ++ [(key, v)]) k = alookup t k := by
  induction t with
  | nil => simp [alookup, Ne.symm h]
  | cons kv rest ih =>
    by_cases hk2 : kv.1 = k
    · simp [alookup, hk2]
    · simp [alookup, hk2, ih]

theorem alookup_getOrInsert_ne {t : TomlTable} {key k : String} {d : Toml}
    (h : k ≠ key) : alookup (getOrInsert t key d).2 k = alookup t k := by
  unfold getOrInsert
  cases alookup t key with
  | none => simp [alookup_append_single_ne h]
  | some v => simp

theorem updateRulesRoot_frame {d fn : String} {tags : List String}
    {root root' : TomlTable} (h : updateRulesRoot d fn tags root = .ok root')
    (k : String) (hk : k ≠ "rules") : alookup root' k = alookup root k := by
  rcases h1 : (getOrInsert root "rules" (Toml.table [])).1.asTable with _ | rt
  · simp only [updateRulesRoot, h1] at h
    exact absurd h (by simp)
  · rcases h2 : (getOrInsert rt "global" (Toml.arr [])).1.asArr with _ | ga
    · simp only [updateRulesRoot, h1, h2] at h
      exact absurd h (by simp)
    · simp only [updateRulesRoot, h1, h2] at h
      simp only [Except.ok.injEq] at h
      subst h
      rw [alookup_setKey_ne hk, alookup_getOrInsert_ne hk]

theorem removeConfig_frame {fn : String} {root : TomlTable} {c' : ConfigText}
    (h : removeFromCodexRulesConfig fn (.parsed root) = .ok c') :
    ∃ root', c' = .parsed root'
      ∧ ∀ k, k ≠ "rules" → alookup root' k = alookup root k := by
  unfold removeFromCodexRulesConfig at h
  simp only [Except.ok.injEq] at h
  subst h
  refine ⟨_, rfl, ?_⟩
  intro k hk
  split
  · split
    · rw [alookup_setKey_ne hk]
    · rfl
  · rfl

/-- Claim C5 (confirmed): any successful `write_codex_rule` or
`delete_codex_rule` over a config document that parses leaves every
top-level key other than `rules` bound to exactly the value it had before
the read-modify-write cycle. -/
theorem claim5_theorem :
    (∀ (rulesDir : String) (st : RulesState) (fn content : String)
        (tags : List String) (root : TomlTable) (st₁ : RulesState),
        st.cfg = .parsed root →
        writeCodexRule rulesDir st fn content tags = (.ok (), st₁) →
        ∃ root', st₁.cfg = .parsed root'
          ∧ ∀ k, k ≠ "rules" → alookup root' k = alookup root k)
    ∧ (∀ (st : RulesState) (fn : String) (root : TomlTable) (st₁ : RulesState),
        st.cfg = .parsed root →
        deleteCodexRule st fn = (.ok (), st₁) →
        ∃ root', st₁.cfg = .parsed root'
          ∧ ∀ k, k ≠ "rules" → alookup root' k = alookup root k) := by
  constructor
  · intro rulesDir st fn content tags root st₁ hcfg hw
    unfold writeCodexRule at hw
    rw [hcfg] at hw
    simp only [updateCodexRulesConfig] at hw
    rcases hupd : updateRulesRoot rulesDir fn tags root with e | root'
    · rw [hupd] at hw; exact absurd hw (by simp)
    · rw [hupd] at hw
      simp only [Prod.mk.injEq] at hw
      refine ⟨root', ?_, fun k hk => updateRulesRoot_frame hupd k hk⟩
      rw [← hw.2]
  · intro st fn root st₁ hcfg hd
    unfold deleteCodexRule at hd
    split at hd
    · rw [hcfg] at hd
      rcases hrem : removeFromCodexRulesConfig fn (.parsed root) with e | c'
      · rw [hrem] at hd; exact absurd hd (by simp)
      · rw [hrem] at hd
        simp only [Prod.mk.injEq] at hd
        obtain ⟨root', hc', hframe⟩ := removeConfig_frame hrem
        refine ⟨root', ?_, hframe⟩
        rw [← hd.2, hc']
    · exact absurd hd (by simp)

/-- Witness for C5: a concrete write next to an unrelated `other` section
preserves that section's binding. -/
theorem claim5_witness :
    (∃ root', (writeCodexRule "/r" ⟨true, [], .parsed [("other", .str "keep")]⟩
        "a.md" "c" ["t"]).2.cfg = .parsed root'
      ∧ ∀ k, k ≠ "rules" → alookup root' k
          = alookup [("other", Toml.str "keep")] k) :=
  claim5_theorem.1 "/r" ⟨true, [], .parsed [("other", .str "keep")]⟩ "a.md" "c" ["t"]
    [("other", .str "keep")] (writeCodexRule "/r" ⟨true, [], .parsed [("other", .str "keep")]⟩
        "a.md" "c" ["t"]).2 rfl rfl

theorem collect_error_of_unreadable (rulesDir : String) :
    ∀ (entries : List (Except String RuleEntry)),
    (∃ r, Except.ok r ∈ entries ∧ r.is_file = true ∧ extOf r.name = some "md"
      ∧ r.read_ok = false) →
    ∃ e, collectRuleFiles rulesDir entries = .error e := by
  intro entries
  induction entries with
  | nil => rintro ⟨r, hr, _⟩; cases hr
  | cons x rest ih =>
    rintro ⟨r, hr, hfile, hmd, hread⟩
    cases x with
    | error e => exact ⟨_, rfl⟩
    | ok r0 =>
      rcases List.mem_cons.mp hr with heq | hmem
      · obtain rfl : r0 = r := by injection heq.symm
        refine ⟨"读取规则文件 " ++ r0.name ++ " 失败", ?_⟩
        simp [collectRuleFiles, hfile, hmd, hread]
      · obtain ⟨e, he⟩ := ih ⟨r, hmem, hfile, hmd, hread⟩
        by_cases hcond : r0.is_file && (extOf r0.name == some "md")
        · by_cases hro : r0.read_ok
          · refine ⟨e, ?_⟩
            simp [collectRuleFiles, hcond, hro, he, Except.map]
          · refine ⟨"读取规则文件 " ++ r0.name ++ " 失败", ?_⟩
            simp [collectRuleFiles, hcond, hro]
        · refine ⟨e, ?_⟩
          simp [collectRuleFiles, hcond, he]

theorem collect_ok_of_readable (rulesDir : String) :
    ∀ (entries : List (Except String RuleEntry)),
    (∀ x ∈ entries, ∃ r, x = Except.ok r ∧ r.read_ok = true) →
    ∃ rules, collectRuleFiles rulesDir entries = .ok rules
      ∧ ∀ r ∈ rules, r.tags = [] := by
  intro entries
  induction entries with
  | nil => intro _; exact ⟨[], rfl, by simp⟩
  | cons x rest ih =>
    intro h
    obtain ⟨r0, rfl, hro⟩ := h x (List.mem_cons_self x rest)
    obtain ⟨rules, hrec, htags⟩ := ih (fun y hy => h y (List.mem_cons_of_mem _ hy))
    by_cases hcond : r0.is_file && (extOf r0.name == some "md")
    · refine ⟨⟨r0.name, rulesDir ++ "/" ++ r0.name, [], r0.content⟩ :: rules, ?_, ?_⟩
      · simp [collectRuleFiles, hcond, hro, hrec, Except.map]
      · intro r hr
        rcases List.mem_cons.mp hr with rfl | hr
        · rfl
        · exact htags r hr
    · refine ⟨rules, ?_, htags⟩
      simp [collectRuleFiles, hcond, hrec]

/-- Claim C10 (confirmed): the listing aborts with an error whenever any
`.md` regular file directly under the rules directory cannot be read as
text, whereas a config read failure degrades gracefully (files are listed
with empty tags). -/
theorem claim10_theorem :
    (∀ (rulesDir : String) (st : RulesState), st.dir_exists = true →
        (∃ r, Except.ok r ∈ st.entries ∧ r.is_file = true
          ∧ extOf r.name = some "md" ∧ r.read_ok = false) →
        ∃ e, listCodexRules rulesDir st = .error e)
    ∧ (∀ (rulesDir : String) (entries : List (Except String RuleEntry)),
        (∀ x ∈ entries, ∃ r, x = Except.ok r ∧ r.read_ok = true) →
        ∃ rules, listCodexRules rulesDir ⟨true, entries, .malformed⟩ = .ok rules
          ∧ ∀ r ∈ rules, r.tags = []) := by
  constructor
  · intro rulesDir st hdir hbad
    obtain ⟨e, he⟩ := collect_error_of_unreadable rulesDir st.entries hbad
    refine ⟨e, ?_⟩
    simp [listCodexRules, hdir, he]
  · intro rulesDir entries h
    obtain ⟨rules, hc, htags⟩ := collect_ok_of_readable rulesDir entries h
    refine ⟨rules, ?_, htags⟩
    simp [listCodexRules, hc, readCodexRulesConfig]

/-- Witness for C10: one unreadable `.md` file aborts a concrete listing;
a malformed config still lists a readable file with empty tags. -/
theorem claim10_witness :
    (∃ e, listCodexRules "/r"
        ⟨true, [Except.ok ⟨"a.md", true, false, ""⟩], .empty⟩ = .error e)
    ∧ (∃ rules, listCodexRules "/r"
        ⟨true, [Except.ok ⟨"b.md", true, true, "hi"⟩], .malformed⟩ = .ok rules
        ∧ ∀ r ∈ rules, r.tags = []) :=
  ⟨claim10_theorem.1 "/r" ⟨true, [Except.ok ⟨"a.md", true, false, ""⟩], .empty⟩ rfl
      ⟨⟨"a.md", true, false, ""⟩, by simp, rfl, by decide, rfl⟩,
   claim10_theorem.2 "/r" [Except.ok ⟨"b.md", true, true, "hi"⟩]
      (by intro x hx; simp at hx; exact ⟨⟨"b.md", true, true, "hi"⟩, hx, rfl⟩)⟩

theorem scanClaudeFiles_noJsonl (p : String) :
    ∀ (fl : List (Except String RecFile)), (∀ y ∈ fl, recNoJsonl y) →
    scanClaudeFiles p fl = .ok [] := by
  intro fl
  induction fl with
  | nil => intro _; rfl
  | cons x rest ih =>
    intro h
    obtain ⟨f, rfl, hext⟩ := h x (List.mem_cons_self x rest)
    have htail := ih (fun y hy => h y (List.mem_cons_of_mem _ hy))
    simp [scanClaudeFiles, hext, htail]

theorem scanCodexFiles_noJsonl :
    ∀ (fl : List (Except String RecFile)), (∀ y ∈ fl, recNoJsonl y) →
    scanCodexFiles fl = .ok [] := by
  intro fl
  induction fl with
  | nil => intro _; rfl
  | cons x rest ih =>
    intro h
    obtain ⟨f, rfl, hext⟩ := h x (List.mem_cons_self x rest)
    have htail := ih (fun y hy => h y (List.mem_cons_of_mem _ hy))
    simp [scanCodexFiles, hext, htail]

theorem scanClaudeEntries_noRecords :
    ∀ (entries : List (Except String ClaudeEntry)),
    (∀ x ∈ entries, claudeEntryNoRecords x) →
    scanClaudeEntries entries = .ok [] := by
  intro entries
  induction entries with
  | nil => intro _; rfl
  | cons x rest ih =>
    intro h
    have htail := ih (fun y hy => h y (List.mem_cons_of_mem _ hy))
    obtain ⟨en, rfl, hen⟩ := h x (List.mem_cons_self x rest)
    rcases hen with rfl | ⟨name, files, rfl, hcase⟩
    · simp [scanClaudeEntries, htail]
    · rcases hcase with hhid | ⟨fl, rfl, hfl⟩
      · simp [scanClaudeEntries, hhid, htail]
      · have hfiles := scanClaudeFiles_noJsonl name fl hfl
        by_cases hhid : startsWithDot name
        · simp [scanClaudeEntries, hhid, htail]
        · simp only [scanClaudeEntries, if_neg hhid, htail, hfiles]
          rfl

theorem scanCodexDays_noRecords :
    ∀ (dl : List (Except String (DNode RecFile))),
    (∀ x ∈ dl, codexDayNoRecords x) → scanCodexDays dl = .ok [] := by
  intro dl
  induction dl with
  | nil => intro _; rfl
  | cons x rest ih =>
    intro h
    have htail := ih (fun y hy => h y (List.mem_cons_of_mem _ hy))
    obtain ⟨nd, rfl, hnd⟩ := h x (List.mem_cons_self x rest)
    rcases hnd with rfl | ⟨fl, rfl, hfl⟩
    · simp [scanCodexDays, htail]
    · have hfiles := scanCodexFiles_noJsonl fl hfl
      simp only [scanCodexDays, htail, hfiles]
      rfl

theorem scanCodexMonths_noRecords :
    ∀ (ml : List (Except String (DNode (DNode RecFile)))),
    (∀ x ∈ ml, codexMonthNoRecords x) → scanCodexMonths ml = .ok [] := by
  intro ml
  induction ml with
  | nil => intro _; rfl
  | cons x rest ih =>
    intro h
    have htail := ih (fun y hy => h y (List.mem_cons_of_mem _ hy))
    obtain ⟨nd, rfl, hnd⟩ := h x (List.mem_cons_self x rest)
    rcases hnd with rfl | ⟨dl, rfl, hdl⟩
    · simp [scanCodexMonths, htail]
    · have hdays := scanCodexDays_noRecords dl hdl
      simp only [scanCodexMonths, htail, hdays]
      rfl

theorem scanCodexYears_noRecords :
    ∀ (yl : List (Except String (DNode (DNode (DNode RecFile))))),
    (∀ x ∈ yl, codexYearNoRecords x) → scanCodexYears yl = .ok [] := by
  intro yl
  induction yl with
  | nil => intro _; rfl
  | cons x rest ih =>
    intro h
    have htail := ih (fun y hy => h y (List.mem_cons_of_mem _ hy))
    obtain ⟨nd, rfl, hnd⟩ := h x (List.mem_cons_self x rest)
    rcases hnd with rfl | ⟨ml, rfl, hml⟩
    · simp [scanCodexYears, htail]
    · have hmonths := scanCodexMonths_noRecords ml hml
      simp only [scanCodexYears, htail, hmonths]
      rfl

/-- Claim C9 counterexample: a Claude root that exists and contains no
qualifying record file at all — just one project subdirectory whose listing
fails — makes the scan return an error, not an empty sequence. -/
theorem claim9_counterexample :
    listClaudeConversations (some (.ok [.ok (.subdir "proj" (.error "denied"))]))
      = .error "读取项目目录失败: denied"
    ∧ ∀ l, listClaudeConversations (some (.ok [.ok (.subdir "proj" (.error "denied"))]))
        ≠ .ok l := by
  constructor
  · rfl
  · intro l h
    rw [show listClaudeConversations (some (.ok [.ok (.subdir "proj" (.error "denied"))]))
        = .error "读取项目目录失败: denied" from rfl] at h
    cases h

/-- Claim C9 (corrected): an absent root, an empty root, or a root whose
entries are all readable and contain no file with the record extension
yields the empty sequence without error, for both backends; (per the
counterexample, an unreadable entry in a record-free tree still errors,
so full readability is required). -/
theorem claim9_theorem :
    listClaudeConversations none = .ok []
    ∧ listCodexConversations none = .ok []
    ∧ listClaudeConversations (some (.ok [])) = .ok []
    ∧ listCodexConversations (some (.ok [])) = .ok []
    ∧ (∀ entries, (∀ x ∈ entries, claudeEntryNoRecords x) →
        listClaudeConversations (some (.ok entries)) = .ok [])
    ∧ (∀ years, (∀ x ∈ years, codexYearNoRecords x) →
        listCodexConversations (some (.ok years)) = .ok []) := by
  refine ⟨rfl, rfl, rfl, rfl, ?_, ?_⟩
  · intro entries h
    have := scanClaudeEntries_noRecords entries h
    simp only [listClaudeConversations, this]
    rfl
  · intro years h
    have := scanCodexYears_noRecords years h
    simp only [listCodexConversations, this]
    rfl

/-- Witness for C9: concrete readable record-free trees scan to empty. -/
theorem claim9_witness :
    listClaudeConversations (some (.ok [.ok (.subdir "p1" (.ok [.ok
      ⟨"notes", some "txt", true, true, "/p/p1/notes.txt", 1, some 1, none, []⟩]))]))
      = .ok []
    ∧ listCodexConversations (some (.ok [.ok (.dir (.ok [.ok (.dir (.ok
        [.ok (.dir (.ok []))]))]))])) = .ok [] := by
  constructor
  · exact claim9_theorem.2.2.2.2.1
      [.ok (.subdir "p1" (.ok [.ok
        ⟨"notes", some "txt", true, true, "/p/p1/notes.txt", 1, some 1, none, []⟩]))]
      (by
        intro x hx
        simp at hx
        subst hx
        exact ⟨_, rfl, Or.inr ⟨"p1", _, rfl, Or.inr ⟨_, rfl, by
          intro y hy
          simp at hy
          subst hy
          exact ⟨_, rfl, by simp⟩⟩⟩⟩)
  · exact claim9_theorem.2.2.2.2.2
      [.ok (.dir (.ok [.ok (.dir (.ok [.ok (.dir (.ok []))]))]))]
      (by
        intro x hx
        simp at hx
        subst hx
        refine ⟨_, rfl, Or.inr ⟨_, rfl, ?_⟩⟩
        intro y hy
        simp at hy
        subst hy
        refine ⟨_, rfl, Or.inr ⟨_, rfl, ?_⟩⟩
        intro z hz
        simp at hz
        subst hz
        exact ⟨_, rfl, Or.inr ⟨[], rfl, by simp⟩⟩)

theorem mem_sortByModifiedDesc {m : ConversationMeta} {l : List ConversationMeta} :
    m ∈ sortByModifiedDesc l ↔ m ∈ l :=
  (List.perm_insertionSort _ l).mem_iff

theorem scanClaudeFiles_allok (p : String) :
    ∀ (fl : List (Except String RecFile)), (∀ x ∈ fl, ∃ f, x = Except.ok f) →
    ∃ ms, scanClaudeFiles p fl = .ok ms ∧
      ∀ m, m ∈ ms ↔ ∃ f, Except.ok f ∈ fl ∧ f.ext = some "jsonl"
        ∧ getClaudeConversationMeta f p = .ok m := by
  intro fl
  induction fl with
  | nil =>
    intro _
    exact ⟨[], rfl, by simp⟩
  | cons x rest ih =>
    intro h
    obtain ⟨f0, rfl⟩ := h x (List.mem_cons_self x rest)
    obtain ⟨ms, hms, hiff⟩ := ih (fun y hy => h y (List.mem_cons_of_mem _ hy))
    by_cases hext : f0.ext = some "jsonl"
    · rcases hmeta : getClaudeConversationMeta f0 p with e | m0
      · refine ⟨ms, ?_, ?_⟩
        · simp [scanClaudeFiles, hext, hmeta, hms]
        · intro m
          rw [hiff m]
          constructor
          · rintro ⟨f, hmem, hx, hm⟩
            exact ⟨f, List.mem_cons_of_mem _ hmem, hx, hm⟩
          · rintro ⟨f, hmem, hx, hm⟩
            rcases List.mem_cons.mp hmem with heq | hmem2
            · obtain rfl : f0 = f := by injection heq.symm
              rw [hmeta] at hm
              cases hm
            · exact ⟨f, hmem2, hx, hm⟩
      · refine ⟨m0 :: ms, ?_, ?_⟩
        · simp [scanClaudeFiles, hext, hmeta, hms, Except.map]
        · intro m
          rw [List.mem_cons]
          constructor
          · rintro (rfl | hm)
            · exact ⟨f0, List.mem_cons_self _ _, hext, hmeta⟩
            · obtain ⟨f, hmem, hx, hm⟩ := (hiff m).mp hm
              exact ⟨f, List.mem_cons_of_mem _ hmem, hx, hm⟩
          · rintro ⟨f, hmem, hx, hm⟩
            rcases List.mem_cons.mp hmem with heq | hmem2
            · obtain rfl : f0 = f := by injection heq.symm
              rw [hmeta] at hm
              injection hm with hm
              exact Or.inl hm.symm
            · exact Or.inr ((hiff m).mpr ⟨f, hmem2, hx, hm⟩)
    · refine ⟨ms, ?_, ?_⟩
      · simp [scanClaudeFiles, hext, hms]
      · intro m
        rw [hiff m]
        constructor
        · rintro ⟨f, hmem, hx, hm⟩
          exact ⟨f, List.mem_cons_of_mem _ hmem, hx, hm⟩
        · rintro ⟨f, hmem, hx, hm⟩
          rcases List.mem_cons.mp hmem with heq | hmem2
          · obtain rfl : f0 = f := by injection heq.symm
            exact absurd hx hext
          · exact ⟨f, hmem2, hx, hm⟩

theorem scanCodexFiles_allok :
    ∀ (fl : List (Except String RecFile)), (∀ x ∈ fl, ∃ f, x = Except.ok f) →
    ∃ ms, scanCodexFiles fl = .ok ms ∧
      ∀ m, m ∈ ms ↔ ∃ f, Except.ok f ∈ fl ∧ f.ext = some "jsonl"
        ∧ getCodexConversationMeta f = .ok m := by
  intro fl
  induction fl with
  | nil =>
    intro _
    exact ⟨[], rfl, by simp⟩
  | cons x rest ih =>
    intro h
    obtain ⟨f0, rfl⟩ := h x (List.mem_cons_self x rest)
    obtain ⟨ms, hms, hiff⟩ := ih (fun y hy => h y (List.mem_cons_of_mem _ hy))
    by_cases hext : f0.ext = some "jsonl"
    · rcases hmeta : getCodexConversationMeta f0 with e | m0
      · refine ⟨ms, ?_, ?_⟩
        · simp [scanCodexFiles, hext, hmeta, hms]
        · intro m
          rw [hiff m]
          constructor
          · rintro ⟨f, hmem, hx, hm⟩
            exact ⟨f, List.mem_cons_of_mem _ hmem, hx, hm⟩
          · rintro ⟨f, hmem, hx, hm⟩
            rcases List.mem_cons.mp hmem with heq | hmem2
            · obtain rfl : f0 = f := by injection heq.symm
              rw [hmeta] at hm
              cases hm
            · exact ⟨f, hmem2, hx, hm⟩
      · refine ⟨m0 :: ms, ?_, ?_⟩
        · simp [scanCodexFiles, hext, hmeta, hms, Except.map]
        · intro m
          rw [List.mem_cons]
          constructor
          · rintro (rfl | hm)
            · exact ⟨f0, List.mem_cons_self _ _, hext, hmeta⟩
            · obtain ⟨f, hmem, hx, hm⟩ := (hiff m).mp hm
              exact ⟨f, List.mem_cons_of_mem _ hmem, hx, hm⟩
          · rintro ⟨f, hmem, hx, hm⟩
            rcases List.mem_cons.mp hmem with heq | hmem2
            · obtain rfl : f0 = f := by injection heq.symm
              rw [hmeta] at hm
              injection hm with hm
              exact Or.inl hm.symm
            · exact Or.inr ((hiff m).mpr ⟨f, hmem2, hx, hm⟩)
    · refine ⟨ms, ?_, ?_⟩
      · simp [scanCodexFiles, hext, hms]
      · intro m
        rw [hiff m]
        constructor
        · rintro ⟨f, hmem, hx, hm⟩
          exact ⟨f, List.mem_cons_of_mem _ hmem, hx, hm⟩
        · rintro ⟨f, hmem, hx, hm⟩
          rcases List.mem_cons.mp hmem with heq | hmem2
          · obtain rfl : f0 = f := by injection heq.symm
            exact absurd hx hext
          · exact ⟨f, hmem2, hx, hm⟩

/-- Claim C1 counterexample: a Claude root listing with a single unreadable
directory entry makes the whole scan return an error — the listing does
not return the remaining (zero) records. -/
theorem claim1_counterexample :
    listClaudeConversations (some (.ok [.error "boom"]))
      = .error "读取目录项失败: boom"
    ∧ ∀ l, listClaudeConversations (some (.ok [.error "boom"])) ≠ .ok l := by
  constructor
  · rfl
  · intro l h
    rw [show listClaudeConversations (some (.ok [.error "boom"]))
        = .error "读取目录项失败: boom" from rfl] at h
    cases h

/-- Claim C1 (corrected): only a record file whose metadata extraction
fails (malformed or unreadable record file) is skipped — the scan still
returns every other record; an unreadable directory entry or subdirectory
listing aborts the scan with an error, as does an unreadable root. -/
theorem claim1_theorem :
    (∀ e, listClaudeConversations (some (.error e))
        = .error ("读取 Claude 项目目录失败: " ++ e))
    ∧ (∀ e, listCodexConversations (some (.error e))
        = .error ("读取 Codex 会话目录失败: " ++ e))
    ∧ (∀ name fl, startsWithDot name = false →
        (∀ x ∈ fl, ∃ f, x = Except.ok f) →
        ∃ l, listClaudeConversations (some (.ok [.ok (.subdir name (.ok fl))])) = .ok l
          ∧ ∀ m, m ∈ l ↔ ∃ f, Except.ok f ∈ fl ∧ f.ext = some "jsonl"
              ∧ getClaudeConversationMeta f name = .ok m)
    ∧ (∀ fl, (∀ x ∈ fl, ∃ f, x = Except.ok f) →
        ∃ l, listCodexConversations
            (some (.ok [.ok (.dir (.ok [.ok (.dir (.ok [.ok (.dir (.ok fl))]))]))]))
            = .ok l
          ∧ ∀ m, m ∈ l ↔ ∃ f, Except.ok f ∈ fl ∧ f.ext = some "jsonl"
              ∧ getCodexConversationMeta f = .ok m)
    ∧ listClaudeConversations (some (.ok [.ok (.subdir "p1" (.error "denied"))]))
        = .error "读取项目目录失败: denied"
    ∧ listCodexConversations (some (.ok [.error "denied"]))
        = .error "读取年份目录失败: denied" := by
  refine ⟨fun e => rfl, fun e => rfl, ?_, ?_, rfl, rfl⟩
  · intro name fl hname hfl
    obtain ⟨ms, hms, hiff⟩ := scanClaudeFiles_allok name fl hfl
    refine ⟨sortByModifiedDesc ms, ?_, ?_⟩
    · have hhid : ¬startsWithDot name = true := by simp [hname]
      simp only [listClaudeConversations, scanClaudeEntries, if_neg hhid, hms]
      show Except.map sortByModifiedDesc (Except.ok (ms ++ [])) = _
      simp [Except.map]
    · intro m
      rw [mem_sortByModifiedDesc]
      exact hiff m
  · intro fl hfl
    obtain ⟨ms, hms, hiff⟩ := scanCodexFiles_allok fl hfl
    refine ⟨sortByModifiedDesc ms, ?_, ?_⟩
    · simp only [listCodexConversations, scanCodexYears, scanCodexMonths,
        scanCodexDays, hms]
      show Except.map sortByModifiedDesc
        (Except.ok (((ms ++ []) ++ []) ++ [])) = _
      simp [Except.map]
    · intro m
      rw [mem_sortByModifiedDesc]
      exact hiff m

/-- Witness for C1: a concrete project with one good record and one
unreadable record file lists exactly the good one. -/
theorem claim1_witness :
    ∃ l, listClaudeConversations (some (.ok [.ok (.subdir "p1" (.ok
        [.ok claudeEnvelopeFile,
         .ok ⟨"bad", some "jsonl", true, false, "/p/bad.jsonl", 1, some 1, none, []⟩]))]))
      = .ok l
      ∧ ∀ m, m ∈ l ↔ ∃ f : RecFile, Except.ok f ∈
          ([Except.ok claudeEnvelopeFile,
            Except.ok ⟨"bad", some "jsonl", true, false, "/p/bad.jsonl", 1, some 1, none, []⟩]
            : List (Except String RecFile))
          ∧ f.ext = some "jsonl" ∧ getClaudeConversationMeta f "p1" = .ok m :=
  claim1_theorem.2.2.1 "p1"
    [Except.ok claudeEnvelopeFile,
     Except.ok ⟨"bad", some "jsonl", true, false, "/p/bad.jsonl", 1, some 1, none, []⟩]
    (by decide)
    (by
      intro x hx
      rcases List.mem_cons.mp hx with rfl | hx2
      · exact ⟨_, rfl⟩
      · simp at hx2
        subst hx2
        exact ⟨_, rfl⟩)

theorem except_ok_bind {ε α β : Type} (a : α) (f : α → Except ε β) :
    (Except.ok a >>= f : Except ε β) = f a := rfl

theorem searchFilter_iff (kw : String) (m : ConversationMeta) :
    (strContains (strToLower m.id) (strToLower kw)
      || (m.project_name.map (fun p => strContains (strToLower p) (strToLower kw))).getD false
      || (m.session_id.map (fun s => strContains (strToLower s) (strToLower kw))).getD false) = true
    ↔ specSearchMatches kw m := by
  rcases hp : m.project_name with _ | p <;> rcases hs : m.session_id with _ | s <;>
    simp [specSearchMatches, hp, hs, Bool.or_eq_true, or_assoc]

/-- Claim C6 (confirmed): with an empty keyword, search returns the full
aggregated list unfiltered; with a non-empty keyword it returns exactly the
aggregated records whose lowercased id, containerName (when present) or
sessionId (when present) contains the lowercased keyword; absent optional
fields simply never match and cause no error. -/
theorem claim6_theorem :
    ∀ (ct : ClaudeTree) (xt : CodexTree) (aty : Option String) (kw : String)
      (lc lx : List ConversationMeta),
      listClaudeConversations ct = .ok lc →
      listCodexConversations xt = .ok lx →
      (kw = "" → searchConversations ct xt aty kw
        = .ok (if aty = some "claude" then lc
               else if aty = some "codex" then lx else lc ++ lx))
      ∧ (kw ≠ "" → ∃ res, searchConversations ct xt aty kw = .ok res
          ∧ ∀ m, m ∈ res ↔
              (m ∈ (if aty = some "claude" then lc
                    else if aty = some "codex" then lx else lc ++ lx)
               ∧ specSearchMatches kw m)) := by
  intro ct xt aty kw lc lx hc hx
  have hagg : (if aty = some "claude" then listClaudeConversations ct
      else if aty = some "codex" then listCodexConversations xt
      else do
        let a ← listClaudeConversations ct
        let b ← listCodexConversations xt
        pure (a ++ b))
      = .ok (if aty = some "claude" then lc
             else if aty = some "codex" then lx else lc ++ lx) := by
    by_cases h1 : aty = some "claude"
    · simp [h1, hc]
    · by_cases h2 : aty = some "codex"
      · simp [h1, h2, hx]
      · simp only [if_neg h1, if_neg h2, hc, hx, except_ok_bind]
        rfl
  constructor
  · intro hkw
    subst hkw
    simp only [searchConversations, hagg]
    simp
  · intro hkw
    refine ⟨((if aty = some "claude" then lc
          else if aty = some "codex" then lx else lc ++ lx).filter (fun conv =>
        strContains (strToLower conv.id) (strToLower kw)
        || (conv.project_name.map (fun p =>
              strContains (strToLower p) (strToLower kw))).getD false
        || (conv.session_id.map (fun s =>
              strContains (strToLower s) (strToLower kw))).getD false)), ?_, ?_⟩
    · simp only [searchConversations, hagg, if_neg hkw]
    · intro m
      rw [List.mem_filter, searchFilter_iff]

/-- Witness for C6: on a concrete one-record catalog, the empty keyword
returns everything and keyword `ABC` (testing case-insensitivity against
id `abc123`) filters by the claim's match rule. -/
theorem claim6_witness :
    (searchConversations claudeSearchTree none none ""
      = .ok ([⟨"abc123", "claude", "/p/abc123.jsonl", 3, none, 10, 0,
          some "proj-x", none⟩] ++ []))
    ∧ (∃ res, searchConversations claudeSearchTree none none "ABC" = .ok res
        ∧ ∀ m, m ∈ res ↔
            (m ∈ ([(⟨"abc123", "claude", "/p/abc123.jsonl", 3, none, 10, 0,
                some "proj-x", none⟩ : ConversationMeta)] ++ [])
             ∧ specSearchMatches "ABC" m)) :=
  ⟨(claim6_theorem claudeSearchTree none none ""
      [⟨"abc123", "claude", "/p/abc123.jsonl", 3, none, 10, 0, some "proj-x", none⟩] []
      rfl rfl).1 rfl,
   (claim6_theorem claudeSearchTree none none "ABC"
      [⟨"abc123", "claude", "/p/abc123.jsonl", 3, none, 10, 0, some "proj-x", none⟩] []
      rfl rfl).2 (by decide)⟩

theorem find_set_of_position {α : Type} {p : α → Bool} {x : α} (hx : p x = true) :
    ∀ (l : List α) (i : Nat), listPosition p l = some i →
      (l.set i x).find? p = some x := by
  intro l
  induction l with
  | nil => intro i h; cases h
  | cons a t ih =>
    intro i h
    by_cases ha : p a
    · simp [listPosition, ha] at h
      subst h
      simp [List.set, List.find?, hx]
    · simp [listPosition, ha] at h
      obtain ⟨j, hj, rfl⟩ := h
      simp only [List.set]
      rw [List.find?_cons_of_neg _ ha]
      exact ih j hj

theorem find_append_of_position_none {α : Type} {p : α → Bool} {x : α}
    (hx : p x = true) :
    ∀ (l : List α), listPosition p l = none → (l ++ [x]).find? p = some x := by
  intro l
  induction l with
  | nil => intro _; simp [List.find?, hx]
  | cons a t ih =>
    intro h
    by_cases ha : p a
    · simp [listPosition, ha] at h
    · simp [listPosition, ha] at h
      rw [List.cons_append, List.find?_cons_of_neg _ ha]
      exact ih h

theorem alookup_setKey_self {t : TomlTable} {key : String} {v w : Toml}
    (h : alookup t key = some w) : alookup (setKey t key v) key = some v := by
  induction t with
  | nil => cases h
  | cons kv rest ih =>
    obtain ⟨k1, v1⟩ := kv
    by_cases hk : k1 = key
    · simp [setKey, alookup, hk]
    · simp [alookup, hk] at h
      simp [setKey, alookup, hk]
      exact ih h

theorem alookup_append_self {t : TomlTable} {key : String} {v : Toml}
    (h : alookup t key = none) : alookup (t ++ [(key, v)]) key = some v := by
  induction t with
  | nil => simp [alookup]
  | cons kv rest ih =>
    obtain ⟨k1, v1⟩ := kv
    by_cases hk : k1 = key
    · simp [alookup, hk] at h
    · simp [alookup, hk] at h ⊢
      exact ih h

theorem filterMap_asStr_map_str (T : List String) :
    (T.map Toml.str).filterMap Toml.asStr = T := by
  induction T with
  | nil => rfl
  | cons a t ih => simp [Toml.asStr, ih]

theorem filterMap_asStr_comp (T : List String) :
    T.filterMap (Toml.asStr ∘ Toml.str) = T := by
  induction T with
  | nil => rfl
  | cons a t ih => simp [Function.comp, Toml.asStr, ih]

theorem ruleTableFor_path {p : String} {tags : List String} :
    alookup (ruleTableFor p tags) "path" = some (Toml.str p) := by
  by_cases ht : tags.isEmpty <;> simp [ruleTableFor, ht, alookup]

theorem ruleTableFor_tagsOf {p : String} {tags : List String} :
    tagsOfTable (ruleTableFor p tags) = tags := by
  by_cases ht : tags.isEmpty
  · have : tags = [] := List.isEmpty_iff.mp ht
    subst this
    rfl
  · rw [ruleTableFor, if_neg ht]
    have : (Toml.arr (tags.map Toml.str)).asArr = some (tags.map Toml.str) := rfl
    simp only [tagsOfTable, alookup]
    rw [if_neg (by decide : ¬("path" = "tags"))]
    simp [filterMap_asStr_map_str, filterMap_asStr_comp, Toml.asArr]

theorem ruleTableFor_no_tags {p : String} :
    alookup (ruleTableFor p []) "tags" = none := rfl

theorem ruleTableFor_matches {d fn : String} {tags : List String}
    (hFn : fileNameOf (d ++ "/" ++ fn) = some fn) :
    entryMatchesName fn (Toml.table (ruleTableFor (d ++ "/" ++ fn) tags)) = true := by
  simp [entryMatchesName, Toml.asTable, ruleTableFor_path, Toml.asStr, hFn]

theorem ruleTableFor_wf {p : String} {tags : List String} :
    itemWF (Toml.table (ruleTableFor p tags)) :=
  ⟨ruleTableFor p tags, p, rfl, ruleTableFor_path⟩

theorem updateRulesRoot_ok_shape {d fn : String} {tags : List String}
    {root root' : TomlTable}
    (hFn : fileNameOf (d ++ "/" ++ fn) = some fn)
    (hWF : ∀ rt ga, alookup root "rules" = some (.table rt) →
        alookup rt "global" = some (.arr ga) → ∀ it ∈ ga, itemWF it)
    (h : updateRulesRoot d fn tags root = .ok root') :
    ∃ rt' ga', alookup root' "rules" = some (.table rt')
      ∧ alookup rt' "global" = some (.arr ga')
      ∧ (∀ it ∈ ga', itemWF it)
      ∧ ga'.find? (entryMatchesName fn)
          = some (.table (ruleTableFor (d ++ "/" ++ fn) tags)) := by
  have hpred : updatePosPred (d ++ "/" ++ fn) = entryMatchesName fn := by
    funext item
    unfold updatePosPred entryMatchesName
    rw [hFn]
  rcases hr : alookup root "rules" with _ | v
  · have e1 : getOrInsert root "rules" (.table [])
        = (.table [], root ++ [("rules", .table [])]) := by
      simp [getOrInsert, hr]
    simp only [updateRulesRoot, e1, Toml.asTable, Toml.asArr, hpred] at h
    have e2 : getOrInsert ([] : TomlTable) "global" (.arr [])
        = (.arr [], [("global", .arr [])]) := rfl
    rw [e2] at h
    simp only [Toml.asArr, listPosition, Except.ok.injEq] at h
    subst h
    refine ⟨_, _, alookup_setKey_self (alookup_append_self hr), rfl, ?_, ?_⟩
    · intro it hit
      simp at hit
      subst hit
      exact ruleTableFor_wf
    · simp [List.find?_cons_of_pos _ (ruleTableFor_matches hFn)]
  · have e1 : getOrInsert root "rules" (.table []) = (v, root) := by
      simp [getOrInsert, hr]
    rcases v with s | n | b | xs | rt
    case str => simp only [updateRulesRoot, e1, Toml.asTable] at h; cases h
    case int => simp only [updateRulesRoot, e1, Toml.asTable] at h; cases h
    case bool => simp only [updateRulesRoot, e1, Toml.asTable] at h; cases h
    case arr => simp only [updateRulesRoot, e1, Toml.asTable] at h; cases h
    case table =>
      rcases hg : alookup rt "global" with _ | w
      · have e2 : getOrInsert rt "global" (.arr [])
            = (.arr [], rt ++ [("global", .arr [])]) := by
          simp [getOrInsert, hg]
        simp only [updateRulesRoot, e1, Toml.asTable, e2, Toml.asArr, listPosition,
          hpred, Except.ok.injEq] at h
        subst h
        refine ⟨_, _, alookup_setKey_self hr,
          alookup_setKey_self (alookup_append_self hg), ?_, ?_⟩
        · intro it hit
          simp at hit
          subst hit
          exact ruleTableFor_wf
        · simp [List.find?_cons_of_pos _ (ruleTableFor_matches hFn)]
      · have e2 : getOrInsert rt "global" (.arr []) = (w, rt) := by
          simp [getOrInsert, hg]
        rcases w with s | n | b | ga | t2
        case str =>
          simp only [updateRulesRoot, e1, Toml.asTable, e2, Toml.asArr] at h; cases h
        case int =>
          simp only [updateRulesRoot, e1, Toml.asTable, e2, Toml.asArr] at h; cases h
        case bool =>
          simp only [updateRulesRoot, e1, Toml.asTable, e2, Toml.asArr] at h; cases h
        case table =>
          simp only [updateRulesRoot, e1, Toml.asTable, e2, Toml.asArr] at h; cases h
        case arr =>
          have hWFga : ∀ it ∈ ga, itemWF it := hWF rt ga hr hg
          simp only [updateRulesRoot, e1, Toml.asTable, e2, Toml.asArr, hpred] at h
          rcases hpos : listPosition (entryMatchesName fn) ga with _ | i
          · rw [hpos] at h
            simp only [Except.ok.injEq] at h
            subst h
            refine ⟨_, _, alookup_setKey_self hr, alookup_setKey_self hg, ?_, ?_⟩
            · intro it hit
              rcases List.mem_append.mp hit with hin | hnew
              · exact hWFga it hin
              · simp at hnew
                subst hnew
                exact ruleTableFor_wf
            · exact find_append_of_position_none (ruleTableFor_matches hFn) ga hpos
          · rw [hpos] at h
            simp only [Except.ok.injEq] at h
            subst h
            refine ⟨_, _, alookup_setKey_self hr, alookup_setKey_self hg, ?_, ?_⟩
            · intro it hit
              rcases List.mem_or_eq_of_mem_set hit with hin | hnew
              · exact hWFga it hin
              · subst hnew
                exact ruleTableFor_wf
            · exact find_set_of_position (ruleTableFor_matches hFn) ga i hpos

theorem parseItems_find {fn : String} :
    ∀ (items : List Toml), (∀ it ∈ items, itemWF it) →
    ∃ crs, parseRuleItems items = .ok crs
      ∧ ∀ tb, items.find? (entryMatchesName fn) = some (.table tb) →
          ∃ p, alookup tb "path" = some (.str p)
            ∧ crs.find? (fun cr => fileNameOf cr.path == some fn)
                = some ⟨p, tagsOfTable tb⟩ := by
  intro items
  induction items with
  | nil =>
    intro _
    exact ⟨[], rfl, by intro tb h; cases h⟩
  | cons it rest ih =>
    intro h
    obtain ⟨t, p0, rfl, hp0⟩ := h it (List.mem_cons_self it rest)
    obtain ⟨crs, hcrs, hfind⟩ := ih (fun y hy => h y (List.mem_cons_of_mem _ hy))
    have hpredeq : entryMatchesName fn (Toml.table t) = (fileNameOf p0 == some fn) := by
      simp [entryMatchesName, Toml.asTable, hp0, Toml.asStr]
    have hparse : parseRuleItems (Toml.table t :: rest)
        = .ok (⟨p0, tagsOfTable t⟩ :: crs) := by
      simp [parseRuleItems, Toml.asTable, hp0, Toml.asStr, hcrs, tagsOfTable, Except.map]
    refine ⟨⟨p0, tagsOfTable t⟩ :: crs, hparse, ?_⟩
    intro tb hfind2
    by_cases hm : entryMatchesName fn (Toml.table t)
    · rw [List.find?_cons_of_pos _ hm] at hfind2
      have htb : t = tb := by
        injection hfind2 with he
        injection he
      subst htb
      refine ⟨p0, hp0, ?_⟩
      have hpred : (fileNameOf p0 == some fn) = true := by
        rw [hpredeq] at hm
        exact hm
      simp [List.find?, hpred]
    · rw [List.find?_cons_of_neg _ hm] at hfind2
      have hpredneg : (fileNameOf p0 == some fn) = false := by
        rw [hpredeq] at hm
        exact Bool.not_eq_true _ ▸ eq_false_of_ne_true hm
      obtain ⟨p, hp, hf⟩ := hfind tb hfind2
      refine ⟨p, hp, ?_⟩
      simp only [List.find?, hpredneg]
      exact hf

theorem writeRule_mem (entries : List (Except String RuleEntry)) (fn content : String) :
    Except.ok (⟨fn, true, true, content⟩ : RuleEntry)
      ∈ writeRuleFileEntries entries fn content := by
  by_cases hany : entries.any (fun e =>
      match e with
      | .ok r => r.name == fn
      | .error _ => false)
  · rw [writeRuleFileEntries, if_pos hany]
    obtain ⟨x, hx, hpred⟩ := List.any_eq_true.mp hany
    rcases x with e | r
    · simp at hpred
    · refine List.mem_map.mpr ⟨.ok r, hx, ?_⟩
      simp only at hpred
      simp [hpred]
  · rw [writeRuleFileEntries, if_neg hany]
    exact List.mem_append_right _ (List.mem_singleton.mpr rfl)

theorem writeRule_allok {entries : List (Except String RuleEntry)}
    (h : ∀ x ∈ entries, ∃ r, x = Except.ok r ∧ r.read_ok = true)
    (fn content : String) :
    ∀ x ∈ writeRuleFileEntries entries fn content,
      ∃ r, x = Except.ok r ∧ r.read_ok = true := by
  intro x hx
  by_cases hany : entries.any (fun e =>
      match e with
      | .ok r => r.name == fn
      | .error _ => false)
  · rw [writeRuleFileEntries, if_pos hany] at hx
    obtain ⟨y, hy, rfl⟩ := List.mem_map.mp hx
    obtain ⟨r, rfl, hr⟩ := h y hy
    by_cases hn : (r.name == fn) = true
    · exact ⟨⟨fn, true, true, content⟩, by simp [hn], rfl⟩
    · exact ⟨r, by simp [hn], hr⟩
  · rw [writeRuleFileEntries, if_neg hany] at hx
    rcases List.mem_append.mp hx with h1 | h2
    · exact h x h1
    · simp at h2
      subst h2
      exact ⟨_, rfl, rfl⟩

theorem collect_mem_file (rulesDir : String) :
    ∀ (entries : List (Except String RuleEntry)) (rules : List CodexRuleFile),
    collectRuleFiles rulesDir entries = .ok rules →
    ∀ r : RuleEntry, Except.ok r ∈ entries → r.is_file = true →
      extOf r.name = some "md" →
    ∃ rf ∈ rules, rf.name = r.name := by
  intro entries
  induction entries with
  | nil =>
    intro rules _ r hr
    cases hr
  | cons x rest ih =>
    intro rules h r hr hf hmd
    cases x with
    | error e => simp [collectRuleFiles] at h
    | ok r0 =>
      rcases List.mem_cons.mp hr with heq | hmem
      · obtain rfl : r0 = r := by injection heq.symm
        cases hro : r0.read_ok with
        | false =>
          rw [collectRuleFiles, if_pos (by simp [hf, hmd]), if_neg (by simp [hro])] at h
          cases h
        | true =>
          rw [collectRuleFiles, if_pos (by simp [hf, hmd]), if_pos hro] at h
          rcases hrec : collectRuleFiles rulesDir rest with e | rules'
          · rw [hrec] at h; cases h
          · rw [hrec] at h
            injection h with h
            subst h
            exact ⟨_, List.mem_cons_self _ _, rfl⟩
      · by_cases hcond : (r0.is_file && (extOf r0.name == some "md")) = true
        · by_cases hro : r0.read_ok = true
          · rw [collectRuleFiles, if_pos hcond, if_pos hro] at h
            rcases hrec : collectRuleFiles rulesDir rest with e | rules'
            · rw [hrec] at h; cases h
            · rw [hrec] at h
              injection h with h
              subst h
              obtain ⟨rf, hrf, hname⟩ := ih rules' hrec r hmem hf hmd
              exact ⟨rf, List.mem_cons_of_mem _ hrf, hname⟩
          · rw [collectRuleFiles, if_pos hcond, if_neg hro] at h
            cases h
        · rw [collectRuleFiles, if_neg hcond] at h
          obtain ⟨rf, hrf, hname⟩ := ih rules h r hmem hf hmd
          exact ⟨rf, hrf, hname⟩

theorem list_after_write {rulesDir fn content : String} {T : List String}
    {entries₁ : List (Except String RuleEntry)} {root₁ rt₁ : TomlTable}
    {ga₁ : List Toml}
    (hFn : fileNameOf (rulesDir ++ "/" ++ fn) = some fn)
    (hmd : extOf fn = some "md")
    (hallok : ∀ x ∈ entries₁, ∃ r, x = Except.ok r ∧ r.read_ok = true)
    (hmem : Except.ok (⟨fn, true, true, content⟩ : RuleEntry) ∈ entries₁)
    (hr₁ : alookup root₁ "rules" = some (.table rt₁))
    (hg₁ : alookup rt₁ "global" = some (.arr ga₁))
    (hWF₁ : ∀ it ∈ ga₁, itemWF it)
    (hfind₁ : ga₁.find? (entryMatchesName fn)
        = some (.table (ruleTableFor (rulesDir ++ "/" ++ fn) T))) :
    ∃ l, listCodexRules rulesDir ⟨true, entries₁, .parsed root₁⟩ = .ok l
      ∧ ∃ rf ∈ l, rf.name = fn ∧ rf.tags = T := by
  obtain ⟨rules₁, hcol, _⟩ := collect_ok_of_readable rulesDir entries₁ hallok
  obtain ⟨rf, hrf, hname0⟩ := collect_mem_file rulesDir entries₁ rules₁ hcol
      ⟨fn, true, true, content⟩ hmem rfl hmd
  have hname : rf.name = fn := hname0
  obtain ⟨crs, hcrs, hfindcr⟩ := parseItems_find ga₁ hWF₁
  obtain ⟨p, hp, hf⟩ := hfindcr _ hfind₁
  have hpeq : p = rulesDir ++ "/" ++ fn := by
    have h2 := @ruleTableFor_path (rulesDir ++ "/" ++ fn) T
    rw [hp] at h2
    injection h2 with h3
    injection h3
  subst hpeq
  rw [ruleTableFor_tagsOf] at hf
  have hread : readCodexRulesConfig (.parsed root₁) = .ok crs := by
    simp [readCodexRulesConfig, hr₁, Toml.asTable, hg₁, Toml.asArr, hcrs]
  have hlist : listCodexRules rulesDir ⟨true, entries₁, .parsed root₁⟩
      = .ok (rules₁.map (fun r =>
          match crs.find? (fun cr => fileNameOf cr.path == some r.name) with
          | some cr => { r with tags := cr.tags }
          | none => r)) := by
    simp [listCodexRules, hcol, hread]
  refine ⟨_, hlist, ⟨{ rf with tags := T }, ?_, ?_, ?_⟩⟩
  · apply List.mem_map.mpr
    refine ⟨rf, hrf, ?_⟩
    show (match crs.find? (fun cr => fileNameOf cr.path == some rf.name) with
          | some cr => { rf with tags := cr.tags }
          | none => rf) = { rf with tags := T }
    rw [hname, hf]
  · simp [hname]
  · simp

/-- Claim C3 (confirmed): from a rules store whose directory entries are
readable and whose config is well formed, writing a rule file (with the
recognized `.md` extension and a plain file name) with tag list `T` and
then listing yields an entry with that name and `tags = T`; writing the
same rule again with `T = []` and listing yields `tags = []`, and the
persisted config entry for that rule then has a `path` key but no `tags`
key at all. -/
theorem claim3_theorem :
    ∀ (rulesDir fn content content₂ : String) (T : List String)
      (st st₁ st₂ : RulesState),
      extOf fn = some "md" →
      fileNameOf (rulesDir ++ "/" ++ fn) = some fn →
      (∀ x ∈ st.entries, ∃ r, x = Except.ok r ∧ r.read_ok = true) →
      cfgGlobalWF st.cfg →
      writeCodexRule rulesDir st fn content T = (.ok (), st₁) →
      writeCodexRule rulesDir st₁ fn content₂ [] = (.ok (), st₂) →
      ((∃ l₁, listCodexRules rulesDir st₁ = .ok l₁
          ∧ ∃ rf ∈ l₁, rf.name = fn ∧ rf.tags = T)
      ∧ (∃ l₂, listCodexRules rulesDir st₂ = .ok l₂
          ∧ ∃ rf ∈ l₂, rf.name = fn ∧ rf.tags = ([] : List String))
      ∧ (∃ root₂ rt ga tb, st₂.cfg = .parsed root₂
          ∧ alookup root₂ "rules" = some (.table rt)
          ∧ alookup rt "global" = some (.arr ga)
          ∧ ga.find? (entryMatchesName fn) = some (.table tb)
          ∧ alookup tb "path" = some (.str (rulesDir ++ "/" ++ fn))
          ∧ alookup tb "tags" = none)) := by
  intro rulesDir fn content content₂ T st st₁ st₂ hmd hFn hEnt hWF hW1 hW2
  -- unpack the first write
  rcases hu1 : updateCodexRulesConfig rulesDir fn T st.cfg with e | root₁
  · rw [writeCodexRule, hu1] at hW1
    exact absurd hW1 (by simp)
  · rw [writeCodexRule, hu1] at hW1
    simp only [Prod.mk.injEq] at hW1
    have hst₁ : st₁ = ⟨true, writeRuleFileEntries st.entries fn content, .parsed root₁⟩ :=
      hW1.2.symm
    -- shape of the first updated config
    have hshape₁ : ∃ rt' ga', alookup root₁ "rules" = some (.table rt')
        ∧ alookup rt' "global" = some (.arr ga')
        ∧ (∀ it ∈ ga', itemWF it)
        ∧ ga'.find? (entryMatchesName fn)
            = some (.table (ruleTableFor (rulesDir ++ "/" ++ fn) T)) := by
      rcases hcfg : st.cfg with _ | root | _
      · rw [hcfg] at hu1
        simp only [updateCodexRulesConfig] at hu1
        exact updateRulesRoot_ok_shape hFn (by intro rt ga h1; simp [alookup] at h1) hu1
      · rw [hcfg] at hu1
        simp only [updateCodexRulesConfig] at hu1
        rw [hcfg] at hWF
        simp only [cfgGlobalWF] at hWF
        exact updateRulesRoot_ok_shape hFn (fun rt ga h1 h2 => hWF rt h1 ga h2) hu1
      · rw [hcfg] at hu1
        simp only [updateCodexRulesConfig] at hu1
        cases hu1
    obtain ⟨rt₁, ga₁, hr₁, hg₁, hWF₁, hfind₁⟩ := hshape₁
    have hallok₁ : ∀ x ∈ writeRuleFileEntries st.entries fn content,
        ∃ r, x = Except.ok r ∧ r.read_ok = true := writeRule_allok hEnt fn content
    have hmem₁ : Except.ok (⟨fn, true, true, content⟩ : RuleEntry)
        ∈ writeRuleFileEntries st.entries fn content := writeRule_mem st.entries fn content
    -- first listing
    have hlist₁ := list_after_write hFn hmd hallok₁ hmem₁ hr₁ hg₁ hWF₁ hfind₁
    -- unpack the second write
    rcases hu2 : updateCodexRulesConfig rulesDir fn [] st₁.cfg with e | root₂
    · rw [writeCodexRule, hu2] at hW2
      exact absurd hW2 (by simp)
    · rw [writeCodexRule, hu2] at hW2
      simp only [Prod.mk.injEq] at hW2
      have hst₂ : st₂ = ⟨true, writeRuleFileEntries st₁.entries fn content₂,
          .parsed root₂⟩ := hW2.2.symm
      have hshape₂ : ∃ rt' ga', alookup root₂ "rules" = some (.table rt')
          ∧ alookup rt' "global" = some (.arr ga')
          ∧ (∀ it ∈ ga', itemWF it)
          ∧ ga'.find? (entryMatchesName fn)
              = some (.table (ruleTableFor (rulesDir ++ "/" ++ fn) [])) := by
        rw [hst₁] at hu2
        simp only [updateCodexRulesConfig] at hu2
        apply updateRulesRoot_ok_shape hFn ?_ hu2
        intro rt ga h1 h2
        rw [hr₁] at h1
        injection h1 with h1
        injection h1 with h1
        subst h1
        rw [hg₁] at h2
        injection h2 with h2
        injection h2 with h2
        subst h2
        exact hWF₁
      obtain ⟨rt₂, ga₂, hr₂, hg₂, hWF₂, hfind₂⟩ := hshape₂
      have hallok₂ : ∀ x ∈ writeRuleFileEntries st₁.entries fn content₂,
          ∃ r, x = Except.ok r ∧ r.read_ok = true := by
        apply writeRule_allok ?_ fn content₂
        rw [hst₁]
        exact hallok₁
      have hmem₂ : Except.ok (⟨fn, true, true, content₂⟩ : RuleEntry)
          ∈ writeRuleFileEntries st₁.entries fn content₂ :=
        writeRule_mem st₁.entries fn content₂
      have hlist₂ := list_after_write hFn hmd hallok₂ hmem₂ hr₂ hg₂ hWF₂ hfind₂
      refine ⟨?_, ?_, ?_⟩
      · rw [hst₁]
        exact hlist₁
      · rw [hst₂]
        exact hlist₂
      · refine ⟨root₂, rt₂, ga₂, ruleTableFor (rulesDir ++ "/" ++ fn) [],
          by rw [hst₂], hr₂, hg₂, hfind₂, ruleTableFor_path, ruleTableFor_no_tags⟩

/-- Witness for C3: a concrete double write into a fresh store. -/
theorem claim3_witness :
    ((∃ l₁, listCodexRules "/r"
        (writeCodexRule "/r" ⟨true, [], .empty⟩ "a.md" "c1" ["t1", "t2"]).2 = .ok l₁
        ∧ ∃ rf ∈ l₁, rf.name = "a.md" ∧ rf.tags = ["t1", "t2"])
    ∧ (∃ l₂, listCodexRules "/r"
        (writeCodexRule "/r"
          (writeCodexRule "/r" ⟨true, [], .empty⟩ "a.md" "c1" ["t1", "t2"]).2
          "a.md" "c2" []).2 = .ok l₂
        ∧ ∃ rf ∈ l₂, rf.name = "a.md" ∧ rf.tags = ([] : List String))
    ∧ (∃ root₂ rt ga tb,
        (writeCodexRule "/r"
          (writeCodexRule "/r" ⟨true, [], .empty⟩ "a.md" "c1" ["t1", "t2"]).2
          "a.md" "c2" []).2.cfg = .parsed root₂
        ∧ alookup root₂ "rules" = some (.table rt)
        ∧ alookup rt "global" = some (.arr ga)
        ∧ ga.find? (entryMatchesName "a.md") = some (.table tb)
        ∧ alookup tb "path" = some (.str ("/r" ++ "/" ++ "a.md"))
        ∧ alookup tb "tags" = none)) :=
  claim3_theorem "/r" "a.md" "c1" "c2" ["t1", "t2"] ⟨true, [], .empty⟩
    (writeCodexRule "/r" ⟨true, [], .empty⟩ "a.md" "c1" ["t1", "t2"]).2
    (writeCodexRule "/r"
      (writeCodexRule "/r" ⟨true, [], .empty⟩ "a.md" "c1" ["t1", "t2"]).2
      "a.md" "c2" []).2
    (by decide) (by decide) (by simp) trivial rfl rfl
